import Mathlib

/-!
# Tetris (`src/tetris.js`): a shallow embedding

The game keeps its state in global variables (`board`, `currentPiece`,
`nextPiece`, `score`, `isGameOver`, `gamePaused`, `gameInterval`).  Here the
globals are the fields of `State` and every function of the source that
mutates them is a function `State → Option State`.

* `none` stands for a run that does not produce a state: the JavaScript throws
  a `TypeError` (a read of `board[i][j]` where `board[i]` is `undefined`),
  leaves the cells of the grid (a write outside a row's cells), or does not
  terminate (the `while` loop of `dropPiece` on a shape without a filled cell).
* `Math.random` is an argument: the index `Math.floor(Math.random() * SHAPES.length)`
  is passed as `rnd : Fin SHAPES.length`.
* Drawing (`draw`, `drawBoard`, `drawPiece`, `drawBlock`), `alert` and the score
  display are output only and are left out; of the timer only whether it is
  armed is kept (`timerActive`).
* Cells are natural numbers, coordinates are integers.
-/

namespace Tetris

/-! ## Constants and data -/

abbrev Row := List Nat
abbrev Board := List Row
abbrev Shape := List (List Nat)

def ROWS : Nat := 20
def COLS : Nat := 10

/-- The catalog `SHAPES` (I, O, T, S, Z, J, L). -/
def SHAPES : List Shape :=
  [ [[1, 1, 1, 1]],
    [[2, 2], [2, 2]],
    [[0, 3, 0], [3, 3, 3]],
    [[4, 4, 0], [0, 4, 4]],
    [[0, 5, 5], [5, 5, 0]],
    [[6, 6, 6], [0, 0, 6]],
    [[7, 7, 7], [7, 0, 0]] ]

structure Piece where
  shape : Shape
  x : Int
  y : Int
  color : Nat
deriving DecidableEq, Repr

structure State where
  board : Board
  currentPiece : Piece
  nextPiece : Piece
  score : Nat
  isGameOver : Bool
  gamePaused : Bool
  timerActive : Bool
deriving DecidableEq, Repr

/-- JavaScript array read `xs[i]`: `none` is `undefined` (index below 0 or past the end). -/
def index? {α : Type} (xs : List α) (i : Int) : Option α :=
  if i < 0 then none else xs[i.toNat]?

/-- The row `Array(COLS).fill(0)`. -/
def emptyRow : Row := List.replicate COLS 0

/-- The board `Array(ROWS).fill().map(() => Array(COLS).fill(0))`. -/
def emptyBoard : Board := List.replicate ROWS emptyRow

/-! ## createNewPiece -/

/-- The function `createNewPiece`, the random index being `rnd`.  `shape[0]` is
read with `headD`: every catalog shape has a first row and a first cell. -/
def createNewPiece (rnd : Fin SHAPES.length) : Piece :=
  let shape := SHAPES.get rnd
  { shape := shape
    x := ((COLS / 2 : Nat) : Int) - (((shape.headD []).length / 2 : Nat) : Int)
    y := 0
    color := (shape.headD []).headD 0 }

/-! ## canMove -/

/-- The inner loop of `canMove` over the cells of shape row `row`, from column
`col` on.  `some true` means the row was passed without a `return false`. -/
def canMoveCells (board : Board) (x y : Int) (row : Nat) : List Nat → Nat → Option Bool
  | [], _ => some true
  | cell :: rest, col =>
    if cell ≠ 0 then
      if x + col < 0 ∨ x + col ≥ COLS ∨ y + row ≥ ROWS then some false
      else
        match index? board (y + row) with
        | none => none
        | some r =>
          match index? r (x + col) with
          | some v => if v ≠ 0 then some false else canMoveCells board x y row rest (col + 1)
          | none => canMoveCells board x y row rest (col + 1)
    else canMoveCells board x y row rest (col + 1)

/-- The outer loop of `canMove` over the rows of the shape, from row `row` on. -/
def canMoveRows (board : Board) (x y : Int) : List (List Nat) → Nat → Option Bool
  | [], _ => some true
  | r :: rest, row =>
    match canMoveCells board x y row r 0 with
    | some true => canMoveRows board x y rest (row + 1)
    | other => other

/-- The function `canMove(x, y, shape)`. -/
def canMove (board : Board) (x y : Int) (shape : Shape) : Option Bool :=
  canMoveRows board x y shape 0

/-! ## mergePiece -/

/-- The write `board[i][j] = v`.  `none`: `board[i]` is `undefined` (a
`TypeError`) or `j` is not the index of a cell of the row. -/
def setCell (board : Board) (i j : Int) (v : Nat) : Option Board :=
  match index? board i with
  | none => none
  | some r =>
    if 0 ≤ j ∧ j < r.length then some (board.set i.toNat (r.set j.toNat v)) else none

/-- The inner `forEach` of `mergePiece` over the cells of shape row `y`. -/
def mergeCells (color : Nat) (px py : Int) (y : Nat) : List Nat → Nat → Board → Option Board
  | [], _, board => some board
  | cell :: rest, x, board =>
    if cell ≠ 0 then
      match setCell board (py + y) (px + x) color with
      | none => none
      | some board1 => mergeCells color px py y rest (x + 1) board1
    else mergeCells color px py y rest (x + 1) board

/-- The outer `forEach` of `mergePiece` over the rows of the shape. -/
def mergeRows (color : Nat) (px py : Int) : List (List Nat) → Nat → Board → Option Board
  | [], _, board => some board
  | r :: rest, y, board =>
    match mergeCells color px py y r 0 board with
    | none => none
    | some board1 => mergeRows color px py rest (y + 1) board1

/-- The test `board[0].some(cell => cell !== 0)` on a first row. -/
def rowOccupied (r : Row) : Bool := r.any (fun cell => cell ≠ 0)

/-- The function `mergePiece`: write the colour under every filled cell, then
set `isGameOver` when row 0 holds a nonzero cell. -/
def mergePiece (s : State) : Option State :=
  match mergeRows s.currentPiece.color s.currentPiece.x s.currentPiece.y
      s.currentPiece.shape 0 s.board with
  | none => none
  | some board1 =>
    match board1 with
    | [] => none
    | row0 :: _ =>
      if rowOccupied row0 then some { s with board := board1, isGameOver := true }
      else some { s with board := board1 }

/-! ## checkLines -/

/-- The test `board[y].every(cell => cell !== 0)`. -/
def rowFull (r : Row) : Bool := r.all (fun cell => cell ≠ 0)

/-- The `for` loop of `checkLines`, one iteration per unit of fuel.  A full row
is spliced out and an empty row unshifted, and the same index is examined again
(`y++` followed by the loop's `y--`). -/
def checkLinesLoop : Nat → Board → Int → Nat → Option (Board × Nat)
  | 0, _, _, _ => none
  | fuel + 1, board, y, linesCleared =>
    if y ≥ 0 then
      match index? board y with
      | none => none
      | some r =>
        if rowFull r then
          checkLinesLoop fuel (emptyRow :: board.eraseIdx y.toNat) y (linesCleared + 1)
        else checkLinesLoop fuel board (y - 1) linesCleared
    else some (board, linesCleared)

/-- The function `checkLines`.  Every iteration either lowers `y` or replaces a
full row by an empty one, so `ROWS + board.length + 1` iterations are never
exceeded (`checkLinesLoop_spec`). -/
def checkLines (s : State) : Option State :=
  match checkLinesLoop (ROWS + s.board.length + 1) s.board ((ROWS : Int) - 1) 0 with
  | none => none
  | some (board1, linesCleared) =>
    some { s with board := board1, score := s.score + linesCleared * 100 }

/-! ## rotate -/

/-- The function `rotate`.  `none`: `matrix[0]` is `undefined`.  An entry
`row[i]` missing from a ragged matrix (`undefined`, falsy like 0) is read as 0. -/
def rotate (matrix : Shape) : Option Shape :=
  match matrix with
  | [] => none
  | first :: _ =>
    some ((List.range first.length).map fun i => (matrix.map fun r => r.getD i 0).reverse)

/-! ## The commands -/

def movePieceLeft (s : State) : Option State :=
  match canMove s.board (s.currentPiece.x - 1) s.currentPiece.y s.currentPiece.shape with
  | none => none
  | some true => some { s with currentPiece := { s.currentPiece with x := s.currentPiece.x - 1 } }
  | some false => some s

def movePieceRight (s : State) : Option State :=
  match canMove s.board (s.currentPiece.x + 1) s.currentPiece.y s.currentPiece.shape with
  | none => none
  | some true => some { s with currentPiece := { s.currentPiece with x := s.currentPiece.x + 1 } }
  | some false => some s

/-- The statements of `movePieceDown` and `dropPiece` after the piece stopped:
`mergePiece(); checkLines();`. -/
def lockPiece (s : State) : Option State :=
  match mergePiece s with
  | none => none
  | some s1 => checkLines s1

def movePieceDown (s : State) (rnd : Fin SHAPES.length) : Option State :=
  match canMove s.board s.currentPiece.x (s.currentPiece.y + 1) s.currentPiece.shape with
  | none => none
  | some true => some { s with currentPiece := { s.currentPiece with y := s.currentPiece.y + 1 } }
  | some false =>
    match lockPiece s with
    | none => none
    | some s2 =>
      if s2.isGameOver then some { s2 with timerActive := false }
      else some { s2 with currentPiece := s2.nextPiece, nextPiece := createNewPiece rnd }

/-- The `while` loop of `dropPiece`, one test of `canMove` per unit of fuel. -/
def dropLoop : Nat → State → Option State
  | 0, _ => none
  | fuel + 1, s =>
    match canMove s.board s.currentPiece.x (s.currentPiece.y + 1) s.currentPiece.shape with
    | none => none
    | some true =>
      dropLoop fuel { s with currentPiece := { s.currentPiece with y := s.currentPiece.y + 1 } }
    | some false => some s

/-- The function `dropPiece`.  With a filled cell in the shape the loop stops
within `ROWS` steps, since `canMove` fails once that cell reaches row `ROWS`. -/
def dropPiece (s : State) (rnd : Fin SHAPES.length) : Option State :=
  match dropLoop (ROWS + 1) s with
  | none => none
  | some s1 =>
    match lockPiece s1 with
    | none => none
    | some s2 => some { s2 with currentPiece := s2.nextPiece, nextPiece := createNewPiece rnd }

def rotatePiece (s : State) : Option State :=
  match rotate s.currentPiece.shape with
  | none => none
  | some rotated =>
    match canMove s.board s.currentPiece.x s.currentPiece.y rotated with
    | none => none
    | some true => some { s with currentPiece := { s.currentPiece with shape := rotated } }
    | some false => some s

def togglePause (s : State) : State :=
  if s.gamePaused then { s with gamePaused := false, timerActive := true }
  else { s with gamePaused := true, timerActive := false }

/-- The function `gameLoop`, the timer's tick. -/
def gameLoop (s : State) (rnd : Fin SHAPES.length) : Option State :=
  if !s.gamePaused && !s.isGameOver then movePieceDown s rnd else some s

/-- The function `handleKeyPress`, `key` being `e.key`. -/
def handleKeyPress (s : State) (key : String) (rnd : Fin SHAPES.length) : Option State :=
  if s.gamePaused || s.isGameOver then some s
  else if key = "ArrowLeft" then movePieceLeft s
  else if key = "ArrowRight" then movePieceRight s
  else if key = "ArrowDown" then movePieceDown s rnd
  else if key = "ArrowUp" then rotatePiece s
  else if key = " " then dropPiece s rnd
  else if key = "p" ∨ key = "P" then some (togglePause s)
  else some s

/-- The state after the script's top level ran: empty board, two fresh pieces,
score 0, timer armed by `initializeGame`. -/
def initialState (r1 r2 : Fin SHAPES.length) : State :=
  { board := emptyBoard
    currentPiece := createNewPiece r1
    nextPiece := createNewPiece r2
    score := 0
    isGameOver := false
    gamePaused := false
    timerActive := true }

/-! ## Predicates used by the statements -/

/-- The data model's board: `ROWS` rows of `COLS` cells. -/
def wfBoard (b : Board) : Prop := b.length = ROWS ∧ ∀ r ∈ b, r.length = COLS

instance (b : Board) : Decidable (wfBoard b) := by
  unfold wfBoard; infer_instance

/-- Number of full rows of a board. -/
def fullRows (b : Board) : Nat := b.countP rowFull

/-- What the text says line clearing leaves: as many empty rows as there were
full rows, followed by the rows that are not full, in their order. -/
def clearedBoard (b : Board) : Board :=
  List.replicate (fullRows b) emptyRow ++ b.filter (fun r => !rowFull r)

/-! ## Example data -/

/-- A row of ten occupied cells. -/
def solidRow : Row := List.replicate COLS 1

/-- A board with four full rows (5, 7, 8 and 19), not all adjacent. -/
def boardFourFull : Board :=
  List.replicate 5 emptyRow ++ [solidRow, [1, 0, 0, 0, 0, 0, 0, 0, 0, 0], solidRow, solidRow] ++
    List.replicate 10 [0, 0, 0, 0, 0, 0, 0, 0, 0, 2] ++ [solidRow]

/-- A running state over `boardFourFull` with score 50. -/
def stateFourFull : State :=
  { initialState ⟨0, by decide⟩ ⟨1, by decide⟩ with board := boardFourFull, score := 50 }

/-- The board cell `board[i][j]` as the text names it (`none`: no such cell). -/
def boardCell (b : Board) (i j : Int) : Option Nat := (index? b i).bind (fun r => index? r j)

/-- Cell `(i, j)` can take a filled cell of a shape: inside the columns, above
the floor, and empty on the board. -/
def cellFree (b : Board) (i j : Int) : Prop :=
  0 ≤ j ∧ j < COLS ∧ i < ROWS ∧ boardCell b i j = some 0

/-- The test `if (shape[r][c])` of `canMove` and `mergePiece`: the shape has a
filled cell at row `r`, column `c` (a missing entry is falsy). -/
def filled (shape : Shape) (r c : Nat) : Prop := (shape.getD r []).getD c 0 ≠ 0

instance (shape : Shape) (r c : Nat) : Decidable (filled shape r c) := by
  unfold filled; infer_instance

/-- Every filled cell of the piece lies on the grid at the piece's anchor. -/
def pieceInGrid (p : Piece) : Prop :=
  ∀ r < p.shape.length, ∀ c < (p.shape.getD r []).length, filled p.shape r c →
    0 ≤ p.y + r ∧ p.y + r < ROWS ∧ 0 ≤ p.x + c ∧ p.x + c < COLS

instance (p : Piece) : Decidable (pieceInGrid p) := by
  unfold pieceInGrid; infer_instance

/-- A tall stack: row 0 empty, row 1 full but for columns 4 and 5, rows 2 to 19
full but for column 5. -/
def boardTall : Board :=
  [emptyRow, [1, 1, 1, 1, 0, 0, 1, 1, 1, 1]] ++ List.replicate 18 [1, 1, 1, 1, 1, 0, 1, 1, 1, 1]

/-- A running state over `boardTall`: the O piece just spawned (x = 4, y = 0),
the I piece next, score 0. -/
def stateTall : State :=
  { initialState ⟨1, by decide⟩ ⟨0, by decide⟩ with board := boardTall }

/-- A run of timer ticks: `gameLoop` once per element, each with its random index. -/
def ticks (s : State) : List (Fin SHAPES.length) → Option State
  | [] => some s
  | rnd :: rest =>
    match gameLoop s rnd with
    | none => none
    | some s1 => ticks s1 rest

/-- A pre-filled board: row 0 occupied but for columns 3 to 6, one cell in row 1. -/
def boardPrefilled : Board :=
  [[1, 1, 1, 0, 0, 0, 0, 1, 1, 1], [0, 0, 0, 1, 0, 0, 0, 0, 0, 0]] ++ List.replicate 18 emptyRow

/-- A running state over `boardPrefilled`: the I piece just spawned (x = 3, y = 0). -/
def statePrefilled : State :=
  { initialState ⟨0, by decide⟩ ⟨1, by decide⟩ with board := boardPrefilled }

/-- Entry `m[i][j]` of a matrix, a missing entry read as 0. -/
def entry (m : Shape) (i j : Nat) : Nat := (m.getD i []).getD j 0

/-- A rectangular matrix of `rows` rows and `cols` columns. -/
def rect (rows cols : Nat) (m : Shape) : Prop := m.length = rows ∧ ∀ r ∈ m, r.length = cols

instance (rows cols : Nat) (m : Shape) : Decidable (rect rows cols m) := by
  unfold rect; infer_instance

/-- Four applications of `rotate` in a row. -/
def rotate4 (m : Shape) : Option Shape :=
  (((rotate m).bind rotate).bind rotate).bind rotate

/-- The first nonzero cell value of a shape in reading order (0 when there is none). -/
def firstNonzeroCell (shape : Shape) : Nat := (shape.flatten.find? (fun cell => cell ≠ 0)).getD 0

/-- The initial state after one pause key: paused, timer cleared. -/
def statePaused : State :=
  { initialState ⟨0, by decide⟩ ⟨1, by decide⟩ with gamePaused := true, timerActive := false }

/-- Row 19 full but for column 0, the rest of the board empty. -/
def boardGap : Board := List.replicate 19 emptyRow ++ [[0, 1, 1, 1, 1, 1, 1, 1, 1, 1]]

/-- The I piece turned upright, in column 0 at the top. -/
def pieceUpright : Piece := { shape := [[1], [1], [1], [1]], x := 0, y := 0, color := 1 }

/-- A running state over `boardGap` with `pieceUpright` at the top, score 300. -/
def stateGapTop : State :=
  { initialState ⟨0, by decide⟩ ⟨1, by decide⟩ with
    board := boardGap, currentPiece := pieceUpright, score := 300 }

/-- The state `stateGapTop` with the piece resting on the floor (y = 16). -/
def stateGapFloor : State :=
  { stateGapTop with currentPiece := { pieceUpright with y := 16 } }

/-- A board whose only full row is row 2; row 10 carries a mark in column 0. -/
def boardOneFull : Board :=
  [emptyRow, emptyRow, solidRow] ++ List.replicate 7 emptyRow ++
    [[3, 0, 0, 0, 0, 0, 0, 0, 0, 0]] ++ List.replicate 9 emptyRow

/-- A running state over `boardOneFull`, score 0. -/
def stateOneFull : State :=
  { initialState ⟨0, by decide⟩ ⟨1, by decide⟩ with board := boardOneFull }

/-- What the host delivers: a timer tick or a key event, each with the random
index a call of `createNewPiece` would draw while it is handled. -/
inductive Event where
  | tick (rnd : Fin SHAPES.length)
  | key (k : String) (rnd : Fin SHAPES.length)

/-- One event handled: `gameLoop` for a tick, `handleKeyPress` for a key. -/
def step (s : State) : Event → Option State
  | Event.tick rnd => gameLoop s rnd
  | Event.key k rnd => handleKeyPress s k rnd

/-- A finite sequence of events handled one after the other. -/
def run (s : State) : List Event → Option State
  | [] => some s
  | e :: rest =>
    match step s e with
    | none => none
    | some s1 => run s1 rest

/-- A state the game can be in: reached from an initial state by ticks and key events. -/
def Reachable (s : State) : Prop :=
  ∃ (r1 r2 : Fin SHAPES.length) (events : List Event), run (initialState r1 r2) events = some s

/-- A state that is over: `statePaused` is not, this one is (row 0 occupied, flag set). -/
def stateOver : State :=
  { statePrefilled with isGameOver := true, timerActive := false }

/-- The width `shape[0].length` of a shape, as `createNewPiece` takes it. -/
def shapeWidth (shape : Shape) : Nat := (shape.headD []).length

/-- The initial state with the I piece moved to the left edge (x = 0). -/
def stateLeftEdge : State :=
  { initialState ⟨0, by decide⟩ ⟨1, by decide⟩ with
    currentPiece := { createNewPiece ⟨0, by decide⟩ with x := 0 } }

/-- The initial state with the L piece moved to the right edge (x = 7 = COLS - 3), three rows down. -/
def stateRightEdge : State :=
  { initialState ⟨6, by decide⟩ ⟨1, by decide⟩ with
    currentPiece := { createNewPiece ⟨6, by decide⟩ with x := 7, y := 3 } }

/-- The initial state with the I piece (x = 3, y = 0): upright it reaches row 3, which is free. -/
def stateRotateFree : State := initialState ⟨0, by decide⟩ ⟨1, by decide⟩

/-- The upright I piece in column 8 of the empty board: turned flat it would
reach column 11, past the right wall. -/
def stateRotateBlocked : State :=
  { initialState ⟨0, by decide⟩ ⟨1, by decide⟩ with
    currentPiece := { pieceUpright with x := 8 } }

/-- Soft drop repeated until the piece locks: `movePieceDown` is called again
while `canMove(x, y + 1)` holds, and a last time when it fails (the call that
locks).  One call per unit of fuel. -/
def moveDownUntilLock : Nat → State → Fin SHAPES.length → Option State
  | 0, _, _ => none
  | fuel + 1, s, rnd =>
    match canMove s.board s.currentPiece.x (s.currentPiece.y + 1) s.currentPiece.shape with
    | none => none
    | some true =>
      match movePieceDown s rnd with
      | none => none
      | some s1 => moveDownUntilLock fuel s1 rnd
    | some false => movePieceDown s rnd

/-- The board after the O piece fell from its spawn position onto the empty floor. -/
def boardODropped : Board :=
  List.replicate 18 emptyRow ++ List.replicate 2 [0, 0, 0, 0, 2, 2, 0, 0, 0, 0]


/-- A shape as the catalog and its rotations have them: rectangular, at least
one row and one column, at least one filled cell. -/
def goodShape (shape : Shape) : Prop :=
  1 ≤ shape.length ∧ 1 ≤ shapeWidth shape ∧ (∀ r ∈ shape, r.length = shapeWidth shape) ∧
    ∃ r, r < shape.length ∧ ∃ c, c < shapeWidth shape ∧ filled shape r c

instance (shape : Shape) : Decidable (goodShape shape) := by
  unfold goodShape; infer_instance

/-- A piece as the game keeps it: anchor at y ≥ 0, filled cells on the grid,
colour at most 7, shape as in `goodShape`. -/
def goodPiece (p : Piece) : Prop :=
  0 ≤ p.y ∧ pieceInGrid p ∧ p.color ≤ 7 ∧ goodShape p.shape

instance (p : Piece) : Decidable (goodPiece p) := by
  unfold goodPiece; infer_instance

/-- Every cell of the board is 0 or a colour from 1 to 7. -/
def cellsInRange (b : Board) : Prop := ∀ r ∈ b, ∀ cell ∈ r, cell ≤ 7

instance (b : Board) : Decidable (cellsInRange b) := by
  unfold cellsInRange; infer_instance

/-- The invariant of the game: board of 20 rows of 10 cells with values up to 7,
active piece as in `goodPiece`, next piece fresh from `createNewPiece`. -/
def Inv (s : State) : Prop :=
  wfBoard s.board ∧ cellsInRange s.board ∧ goodPiece s.currentPiece ∧
    ∃ rnd, s.nextPiece = createNewPiece rnd

/-- The state after the O piece was hard-dropped on the empty board (next piece
I, then S drawn): reached from the initial state by one space key. -/
def stateAfterDrop : State :=
  { initialState ⟨0, by decide⟩ ⟨3, by decide⟩ with board := boardODropped }

/-- The T piece, as `createNewPiece` makes it, resting on the floor of the empty board (y = 18). -/
def stateTFloor : State :=
  { initialState ⟨2, by decide⟩ ⟨0, by decide⟩ with
    currentPiece := { createNewPiece ⟨2, by decide⟩ with y := 18 } }

/-! ## Theorems -/

/-! ### checkLines -/

theorem rowFull_emptyRow : rowFull emptyRow = false := by decide

theorem index?_append_length {α : Type} (xs : List α) (a : α) (ys : List α) :
    index? (xs ++ a :: ys) (xs.length : Int) = some a := by
  have h : ¬ ((xs.length : Int) < 0) := by omega
  simp only [index?, if_neg h, Int.toNat_ofNat]
  rw [List.getElem?_append_right (le_refl _)]
  simp

/-- Loop invariant of `checkLines`: with the rows `top` still to examine
(indices `0 .. y`) above the rows `bottom` already passed, the loop clears the
full rows of `top` and leaves `bottom` alone. -/
theorem checkLinesLoop_spec (fuel : Nat) : ∀ (top bottom : Board) (lines : Nat),
    top.length + top.countP rowFull < fuel →
    checkLinesLoop fuel (top ++ bottom) ((top.length : Int) - 1) lines =
      some (List.replicate (top.countP rowFull) emptyRow ++ top.filter (fun r => !rowFull r)
        ++ bottom, lines + top.countP rowFull) := by
  induction fuel with
  | zero => intro top bottom lines h; omega
  | succ fuel ih =>
    intro top bottom lines h
    rcases List.eq_nil_or_concat top with rfl | ⟨init, last, hc⟩
    · simp [checkLinesLoop]
    · rw [List.concat_eq_append] at hc
      subst hc
      have hy : ((init ++ [last]).length : Int) - 1 = (init.length : Int) := by simp
      rw [hy]
      have hidx : index? (init ++ [last] ++ bottom) (init.length : Int) = some last := by
        rw [List.append_assoc]; exact index?_append_length init last bottom
      unfold checkLinesLoop
      rw [if_pos (by omega), hidx]
      simp only
      by_cases hf : rowFull last = true
      · rw [if_pos hf]
        have herase : (init ++ [last] ++ bottom).eraseIdx (init.length : Int).toNat
            = init ++ bottom := by
          simp [List.eraseIdx_append_of_length_le]
        rw [herase]
        have hlen : (init.length : Int) = (((emptyRow :: init).length : Nat) : Int) - 1 := by simp
        have hstep := ih (emptyRow :: init) bottom (lines + 1) (by
          simp [List.countP_cons, rowFull_emptyRow, List.countP_append, hf] at h ⊢; omega)
        rw [hlen]
        rw [List.cons_append] at hstep
        rw [hstep]
        simp [List.countP_cons, rowFull_emptyRow, List.countP_append, hf, List.filter_cons,
          List.filter_append]
        constructor
        · rw [List.replicate_succ']; simp
        · omega
      · simp only [Bool.not_eq_true] at hf
        rw [if_neg (by simp [hf])]
        have hstep := ih init (last :: bottom) lines (by
          simp [List.countP_append, List.countP_cons, hf] at h ⊢; omega)
        rw [List.append_assoc]
        simp only [List.singleton_append]
        rw [hstep]
        simp [List.countP_append, List.countP_cons, hf, List.filter_append, List.filter_cons]

/-- The loop of `checkLines` on a board of `ROWS` rows, with the fuel `checkLines` gives it. -/
theorem checkLinesLoop_board (b : Board) (hlen : b.length = ROWS) :
    checkLinesLoop (ROWS + b.length + 1) b ((ROWS : Int) - 1) 0
      = some (clearedBoard b, fullRows b) := by
  have h := checkLinesLoop_spec (ROWS + b.length + 1) b [] 0 (by
    have := List.countP_le_length rowFull (l := b)
    omega)
  simp only [List.append_nil, Nat.zero_add] at h
  rw [hlen] at h ⊢
  exact h

/-- The function `checkLines` on a board of `ROWS` rows. -/
theorem checkLines_eq (s : State) (hlen : s.board.length = ROWS) :
    checkLines s = some { s with board := clearedBoard s.board,
                                 score := s.score + fullRows s.board * 100 } := by
  unfold checkLines
  rw [checkLinesLoop_board s.board hlen]

theorem clearedBoard_of_none_full (b : Board) (h : ∀ r ∈ b, rowFull r = false) :
    fullRows b = 0 ∧ clearedBoard b = b := by
  have h0 : fullRows b = 0 := by
    unfold fullRows
    rw [List.countP_eq_zero]
    intro r hr; simp [h r hr]
  refine ⟨h0, ?_⟩
  unfold clearedBoard
  rw [h0]
  simp only [List.replicate_zero, List.nil_append]
  rw [List.filter_eq_self]
  intro r hr; simp [h r hr]

theorem clearedBoard_of_all_full (b : Board) (h : ∀ r ∈ b, rowFull r = true) :
    fullRows b = b.length ∧ clearedBoard b = List.replicate b.length emptyRow := by
  have h0 : fullRows b = b.length := by
    unfold fullRows
    rw [List.countP_eq_length]
    exact h
  refine ⟨h0, ?_⟩
  unfold clearedBoard
  rw [h0]
  have : b.filter (fun r => !rowFull r) = [] := by
    rw [List.filter_eq_nil_iff]
    intro r hr; simp [h r hr]
  rw [this, List.append_nil]

/-- C1: on a board of 20 rows of 10 cells, `checkLines` leaves k empty rows
followed by the rows that were not full, in their order, where k is the number
of full rows and the number of lines counted (the loop's count, and the score
gains 100 k).  With no full row the state is unchanged and 0 lines are counted;
with all rows full the board becomes empty and `ROWS` lines are counted. -/
theorem checkLines_clears_full_rows (s : State) (hwf : wfBoard s.board) :
    checkLinesLoop (ROWS + s.board.length + 1) s.board ((ROWS : Int) - 1) 0
        = some (List.replicate (s.board.countP rowFull) emptyRow
                  ++ s.board.filter (fun r => !rowFull r), s.board.countP rowFull)
    ∧ checkLines s
        = some { s with board := List.replicate (s.board.countP rowFull) emptyRow
                                   ++ s.board.filter (fun r => !rowFull r),
                        score := s.score + s.board.countP rowFull * 100 }
    ∧ ((∀ r ∈ s.board, rowFull r = false) →
        s.board.countP rowFull = 0 ∧ checkLines s = some s)
    ∧ ((∀ r ∈ s.board, rowFull r = true) →
        s.board.countP rowFull = ROWS ∧
        checkLines s = some { s with board := emptyBoard, score := s.score + ROWS * 100 }) := by
  have hlen := hwf.1
  refine ⟨checkLinesLoop_board s.board hlen, checkLines_eq s hlen, ?_, ?_⟩
  · intro h
    obtain ⟨h0, hb⟩ := clearedBoard_of_none_full s.board h
    refine ⟨h0, ?_⟩
    rw [checkLines_eq s hlen, hb, h0]
    simp
  · intro h
    obtain ⟨h0, hb⟩ := clearedBoard_of_all_full s.board h
    rw [hlen] at h0 hb
    refine ⟨h0, ?_⟩
    rw [checkLines_eq s hlen, hb, h0]
    rfl

/-- C1 at `stateFourFull`: rows 5, 7, 8 and 19 are cleared at once, four empty
rows come on top, the other rows keep their order, and the score goes from 50 to 450. -/
theorem checkLines_clears_full_rows_witness :
    wfBoard stateFourFull.board ∧
    checkLines stateFourFull
      = some { stateFourFull with
          board := List.replicate 9 emptyRow ++ [[1, 0, 0, 0, 0, 0, 0, 0, 0, 0]] ++
                     List.replicate 10 [0, 0, 0, 0, 0, 0, 0, 0, 0, 2],
          score := 450 } :=
  ⟨by decide, (checkLines_clears_full_rows stateFourFull (by decide)).2.1.trans (by decide)⟩

/-! ### canMove -/

theorem index?_of_lt {α : Type} (xs : List α) (i : Int) (h0 : 0 ≤ i) (h1 : i < xs.length) :
    ∃ a, index? xs i = some a ∧ a ∈ xs := by
  have hlt : i.toNat < xs.length := by omega
  refine ⟨xs[i.toNat], ?_, List.getElem_mem _⟩
  simp only [index?, if_neg (not_lt.mpr h0)]
  exact List.getElem?_eq_getElem hlt

theorem boardCell_of_wf (b : Board) (hwf : wfBoard b) (i j : Int)
    (hi0 : 0 ≤ i) (hi1 : i < ROWS) (hj0 : 0 ≤ j) (hj1 : j < COLS) :
    ∃ r v, index? b i = some r ∧ index? r j = some v ∧ boardCell b i j = some v := by
  obtain ⟨r, hr, hmem⟩ := index?_of_lt b i hi0 (by rw [hwf.1]; exact hi1)
  obtain ⟨v, hv, _⟩ := index?_of_lt r j hj0 (by rw [hwf.2 r hmem]; exact hj1)
  exact ⟨r, v, hr, hv, by simp [boardCell, hr, hv]⟩

theorem canMoveCells_spec (b : Board) (hwf : wfBoard b) (x y : Int) (row : Nat)
    (hy : 0 ≤ y + row) : ∀ (cells : List Nat) (col : Nat),
    ∃ res, canMoveCells b x y row cells col = some res ∧
      (res = true ↔ ∀ c v, cells[c]? = some v → v ≠ 0 → cellFree b (y + row) (x + ((col + c : Nat) : Int))) := by
  intro cells
  induction cells with
  | nil => intro col; exact ⟨true, rfl, by simp⟩
  | cons cell rest ih =>
    intro col
    obtain ⟨res, hres, hiff⟩ := ih (col + 1)
    have htail : (∀ c v, rest[c]? = some v → v ≠ 0 →
        cellFree b (y + row) (x + ((col + 1 + c : Nat) : Int))) ↔
        (∀ c v, (cell :: rest)[c + 1]? = some v → v ≠ 0 →
        cellFree b (y + row) (x + ((col + (c + 1) : Nat) : Int))) := by
      constructor
      · intro h c v hc hv
        have := h c v (by simpa using hc) hv
        rwa [show col + 1 + c = col + (c + 1) by omega] at this
      · intro h c v hc hv
        have := h c v (by simpa using hc) hv
        rwa [show col + (c + 1) = col + 1 + c by omega] at this
    by_cases hcell : cell = 0
    · refine ⟨res, ?_, ?_⟩
      · simp only [canMoveCells, hcell, ne_eq, not_true_eq_false, if_false]
        exact hres
      · rw [hiff, htail]
        constructor
        · intro h c v hc hv
          cases c with
          | zero => simp at hc; omega
          | succ c => exact h c v hc hv
        · intro h c v hc hv
          exact h (c + 1) v hc hv
    · by_cases hout : x + col < 0 ∨ x + col ≥ COLS ∨ y + row ≥ ROWS
      · refine ⟨false, ?_, ?_⟩
        · simp only [canMoveCells, ne_eq, hcell, not_false_eq_true, if_true, hout]
        · simp only [Bool.false_eq_true, false_iff]
          intro h
          have := h 0 cell (by simp) hcell
          simp only [cellFree, Nat.add_zero] at this
          omega
      · have hin : 0 ≤ x + col ∧ x + col < COLS ∧ y + row < ROWS := by omega
        obtain ⟨r, v, hr, hv, hbc⟩ := boardCell_of_wf b hwf (y + row) (x + col) hy hin.2.2 hin.1 hin.2.1
        by_cases hv0 : v = 0
        · refine ⟨res, ?_, ?_⟩
          · simp only [canMoveCells, ne_eq, hcell, not_false_eq_true, if_true, hout, if_false, hr, hv,
              hv0, not_true_eq_false]
            exact hres
          · rw [hiff, htail]
            constructor
            · intro h c w hc hw
              cases c with
              | zero =>
                simp only [cellFree, Nat.add_zero]
                exact ⟨hin.1, hin.2.1, hin.2.2, by rw [hbc, hv0]⟩
              | succ c => exact h c w hc hw
            · intro h c w hc hw
              exact h (c + 1) w hc hw
        · refine ⟨false, ?_, ?_⟩
          · simp only [canMoveCells, ne_eq, hcell, not_false_eq_true, if_true, hout, if_false, hr, hv,
              hv0]
          · simp only [Bool.false_eq_true, false_iff]
            intro h
            have := h 0 cell (by simp) hcell
            simp only [cellFree, Nat.add_zero] at this
            rw [hbc] at this
            exact hv0 (Option.some.inj this.2.2.2)

theorem canMoveRows_spec (b : Board) (hwf : wfBoard b) (x y : Int) (hy : 0 ≤ y) :
    ∀ (rows : List (List Nat)) (row : Nat),
    ∃ res, canMoveRows b x y rows row = some res ∧
      (res = true ↔ ∀ (r c : Nat) (cells : List Nat) (v : Nat),
        rows[r]? = some cells → cells[c]? = some v → v ≠ 0 →
        cellFree b (y + ((row + r : Nat) : Int)) (x + (c : Int))) := by
  intro rows
  induction rows with
  | nil => intro row; exact ⟨true, rfl, by simp⟩
  | cons cells rest ih =>
    intro row
    obtain ⟨res1, hres1, hiff1⟩ := canMoveCells_spec b hwf x y row (by omega) cells 0
    obtain ⟨res2, hres2, hiff2⟩ := ih (row + 1)
    simp only [Nat.zero_add] at hiff1
    cases res1 with
    | false =>
      refine ⟨false, ?_, ?_⟩
      · simp only [canMoveRows, hres1]
      · simp only [Bool.false_eq_true, false_iff] at hiff1 ⊢
        intro h
        apply hiff1
        intro c v hc hv
        have := h 0 c cells v (by simp) hc hv
        simpa using this
    | true =>
      refine ⟨res2, ?_, ?_⟩
      · simp only [canMoveRows, hres1]
        exact hres2
      · have h1 := hiff1.mp rfl
        rw [hiff2]
        constructor
        · intro h r c cs v hr hc hv
          cases r with
          | zero =>
            simp only [List.getElem?_cons_zero, Option.some.injEq] at hr
            subst hr
            simpa using h1 c v hc hv
          | succ r =>
            have := h r c cs v (by simpa using hr) hc hv
            rwa [show row + 1 + r = row + (r + 1) by omega] at this
        · intro h r c cs v hr hc hv
          have := h (r + 1) c cs v (by simpa using hr) hc hv
          rwa [show row + (r + 1) = row + 1 + r by omega] at this

/-- C2: on a board of 20 rows of 10 cells and for y ≥ 0, `canMove(x, y, shape)`
returns (no read is out of range), and it returns true exactly when every
filled cell (r, c) of the shape has 0 ≤ x+c < COLS, y+r < ROWS and
board[y+r][x+c] = 0; so it returns false as soon as one filled cell is out of
bounds or on an occupied cell. -/
theorem canMove_spec (b : Board) (hwf : wfBoard b) (shape : Shape) (x y : Int) (hy : 0 ≤ y) :
    ∃ res, canMove b x y shape = some res ∧
      (res = true ↔ ∀ (r c : Nat) (cells : List Nat) (v : Nat),
        shape[r]? = some cells → cells[c]? = some v → v ≠ 0 →
          0 ≤ x + c ∧ x + c < COLS ∧ y + r < ROWS ∧
          (index? b (y + r)).bind (fun br => index? br (x + c)) = some 0) := by
  obtain ⟨res, hres, hiff⟩ := canMoveRows_spec b hwf x y hy shape 0
  refine ⟨res, hres, ?_⟩
  rw [hiff]
  simp only [Nat.zero_add, cellFree, boardCell]

/-- C2 on the empty board with the O shape at its spawn position. -/
theorem canMove_spec_witness :
    wfBoard emptyBoard ∧ (0 : Int) ≤ 0 ∧
    ∃ res, canMove emptyBoard 4 0 [[2, 2], [2, 2]] = some res ∧
      (res = true ↔ ∀ (r c : Nat) (cells : List Nat) (v : Nat),
        ([[2, 2], [2, 2]] : Shape)[r]? = some cells → cells[c]? = some v → v ≠ 0 →
          0 ≤ (4 : Int) + c ∧ (4 : Int) + c < COLS ∧ (0 : Int) + r < ROWS ∧
          (index? emptyBoard ((0 : Int) + r)).bind (fun br => index? br ((4 : Int) + c)) = some 0) :=
  ⟨by decide, by decide, canMove_spec emptyBoard (by decide) [[2, 2], [2, 2]] 4 0 (by decide)⟩

/-! ### mergePiece -/

theorem filled_of_getElem? (shape : Shape) (r c : Nat) (cells : List Nat) (v : Nat)
    (hr : shape[r]? = some cells) (hc : cells[c]? = some v) (hv : v ≠ 0) :
    r < shape.length ∧ c < (shape.getD r []).length ∧ filled shape r c := by
  have hr1 : r < shape.length := by
    by_contra h
    rw [List.getElem?_eq_none (by omega)] at hr
    cases hr
  have hc1 : c < cells.length := by
    by_contra h
    rw [List.getElem?_eq_none (by omega)] at hc
    cases hc
  have hg : shape.getD r [] = cells := by
    rw [List.getD_eq_getElem?_getD, hr]; rfl
  refine ⟨hr1, by rw [hg]; exact hc1, ?_⟩
  unfold filled
  rw [hg, List.getD_eq_getElem?_getD, hc]
  exact hv

theorem setCell_wf (b b1 : Board) (i j : Int) (v : Nat) (hwf : wfBoard b)
    (h : setCell b i j v = some b1) : wfBoard b1 := by
  unfold setCell at h
  cases hidx : index? b i with
  | none => rw [hidx] at h; cases h
  | some r =>
    rw [hidx] at h
    simp only at h
    split at h
    · cases h
      have hr : r ∈ b := by
        unfold index? at hidx
        split at hidx
        · cases hidx
        · exact List.getElem?_mem hidx
      refine ⟨by rw [List.length_set]; exact hwf.1, ?_⟩
      intro r1 hr1
      rcases List.mem_or_eq_of_mem_set hr1 with hm | rfl
      · exact hwf.2 r1 hm
      · rw [List.length_set]; exact hwf.2 r hr
    · cases h

theorem setCell_isSome (b : Board) (i j : Int) (v : Nat) (hwf : wfBoard b)
    (hi0 : 0 ≤ i) (hi1 : i < ROWS) (hj0 : 0 ≤ j) (hj1 : j < COLS) :
    ∃ b1, setCell b i j v = some b1 := by
  obtain ⟨r, hr, hmem⟩ := index?_of_lt b i hi0 (by rw [hwf.1]; exact hi1)
  have hl := hwf.2 r hmem
  unfold setCell
  rw [hr]
  simp only
  rw [if_pos ⟨hj0, by rw [hl]; exact hj1⟩]
  exact ⟨_, rfl⟩

theorem mergeCells_wf (color : Nat) (px py : Int) (y : Nat) :
    ∀ (cells : List Nat) (x : Nat) (b b1 : Board), wfBoard b →
      mergeCells color px py y cells x b = some b1 → wfBoard b1 := by
  intro cells
  induction cells with
  | nil => intro x b b1 hwf h; simp only [mergeCells] at h; cases h; exact hwf
  | cons cell rest ih =>
    intro x b b1 hwf h
    simp only [mergeCells] at h
    split at h
    · cases hs : setCell b (py + y) (px + x) color with
      | none => rw [hs] at h; cases h
      | some b2 =>
        rw [hs] at h
        exact ih (x + 1) b2 b1 (setCell_wf b b2 _ _ _ hwf hs) h
    · exact ih (x + 1) b b1 hwf h

theorem mergeRows_wf (color : Nat) (px py : Int) :
    ∀ (rows : List (List Nat)) (y : Nat) (b b1 : Board), wfBoard b →
      mergeRows color px py rows y b = some b1 → wfBoard b1 := by
  intro rows
  induction rows with
  | nil => intro y b b1 hwf h; simp only [mergeRows] at h; cases h; exact hwf
  | cons cells rest ih =>
    intro y b b1 hwf h
    simp only [mergeRows] at h
    cases hs : mergeCells color px py y cells 0 b with
    | none => rw [hs] at h; cases h
    | some b2 =>
      rw [hs] at h
      exact ih (y + 1) b2 b1 (mergeCells_wf color px py y cells 0 b b2 hwf hs) h

theorem mergeCells_isSome (color : Nat) (px py : Int) (y : Nat) :
    ∀ (cells : List Nat) (x : Nat) (b : Board), wfBoard b →
      (∀ (c v : Nat), cells[c]? = some v → v ≠ 0 →
        0 ≤ py + y ∧ py + y < ROWS ∧
        0 ≤ px + ((x + c : Nat) : Int) ∧ px + ((x + c : Nat) : Int) < COLS) →
      ∃ b1, mergeCells color px py y cells x b = some b1 := by
  intro cells
  induction cells with
  | nil => intro x b _ _; exact ⟨b, rfl⟩
  | cons cell rest ih =>
    intro x b hwf hin
    have hrest : ∀ (c v : Nat), rest[c]? = some v → v ≠ 0 →
        0 ≤ py + y ∧ py + y < ROWS ∧
        0 ≤ px + ((x + 1 + c : Nat) : Int) ∧ px + ((x + 1 + c : Nat) : Int) < COLS := by
      intro c v hc hv
      have := hin (c + 1) v (by simpa using hc) hv
      rwa [show x + (c + 1) = x + 1 + c by omega] at this
    simp only [mergeCells]
    split
    · rename_i hcell
      have h0 := hin 0 cell (by simp) hcell
      simp only [Nat.add_zero] at h0
      obtain ⟨b2, hb2⟩ := setCell_isSome b (py + y) (px + x) color hwf h0.1 h0.2.1 h0.2.2.1 h0.2.2.2
      rw [hb2]
      exact ih (x + 1) b2 (setCell_wf b b2 _ _ _ hwf hb2) hrest
    · exact ih (x + 1) b hwf hrest

theorem mergeRows_isSome (color : Nat) (px py : Int) :
    ∀ (rows : List (List Nat)) (y : Nat) (b : Board), wfBoard b →
      (∀ (r c : Nat) (cells : List Nat) (v : Nat),
        rows[r]? = some cells → cells[c]? = some v → v ≠ 0 →
        0 ≤ py + ((y + r : Nat) : Int) ∧ py + ((y + r : Nat) : Int) < ROWS ∧
        0 ≤ px + (c : Int) ∧ px + (c : Int) < COLS) →
      ∃ b1, mergeRows color px py rows y b = some b1 := by
  intro rows
  induction rows with
  | nil => intro y b _ _; exact ⟨b, rfl⟩
  | cons cells rest ih =>
    intro y b hwf hin
    obtain ⟨b2, hb2⟩ := mergeCells_isSome color px py y cells 0 b hwf (by
      intro c v hc hv
      have := hin 0 c cells v (by simp) hc hv
      simpa using this)
    simp only [mergeRows, hb2]
    apply ih (y + 1) b2 (mergeCells_wf color px py y cells 0 b b2 hwf hb2)
    intro r c cs v hr hc hv
    have := hin (r + 1) c cs v (by simpa using hr) hc hv
    rwa [show y + (r + 1) = y + 1 + r by omega] at this

/-- The board part of `mergePiece`: the cells written by its two `forEach`. -/
theorem mergePiece_eq (s s1 : State) (h : mergePiece s = some s1) :
    ∃ b1, mergeRows s.currentPiece.color s.currentPiece.x s.currentPiece.y
        s.currentPiece.shape 0 s.board = some b1 ∧
      s1 = { s with board := b1,
                    isGameOver := if rowOccupied (b1.headD []) then true else s.isGameOver } := by
  unfold mergePiece at h
  cases hm : mergeRows s.currentPiece.color s.currentPiece.x s.currentPiece.y
      s.currentPiece.shape 0 s.board with
  | none => rw [hm] at h; cases h
  | some b1 =>
    rw [hm] at h
    refine ⟨b1, rfl, ?_⟩
    cases b1 with
    | nil => cases h
    | cons row0 rest =>
      simp only at h
      split at h
      · rename_i ho
        cases h
        simp [ho]
      · rename_i ho
        cases h
        simp [ho]

theorem mergePiece_wf (s s1 : State) (hwf : wfBoard s.board) (h : mergePiece s = some s1) :
    wfBoard s1.board := by
  obtain ⟨b1, hb1, rfl⟩ := mergePiece_eq s s1 h
  exact mergeRows_wf _ _ _ _ _ _ _ hwf hb1

theorem mergePiece_isSome (s : State) (hwf : wfBoard s.board) (hin : pieceInGrid s.currentPiece) :
    ∃ s1, mergePiece s = some s1 := by
  obtain ⟨b1, hb1⟩ := mergeRows_isSome s.currentPiece.color s.currentPiece.x s.currentPiece.y
    s.currentPiece.shape 0 s.board hwf (by
      intro r c cells v hr hc hv
      obtain ⟨h1, h2, h3⟩ := filled_of_getElem? _ r c cells v hr hc hv
      have := hin r h1 c h2 h3
      simpa using this)
  have hwf1 := mergeRows_wf _ _ _ _ _ _ _ hwf hb1
  unfold mergePiece
  rw [hb1]
  cases b1 with
  | nil => exact absurd hwf1.1 (by decide)
  | cons row0 rest =>
    simp only
    split
    · exact ⟨_, rfl⟩
    · exact ⟨_, rfl⟩

/-! ### movePieceDown -/

/-- The lock sequence `mergePiece(); checkLines();` on a board of `ROWS` rows. -/
theorem lockPiece_eq (s s1 : State) (hwf : wfBoard s.board) (hm : mergePiece s = some s1) :
    lockPiece s = some { s1 with board := clearedBoard s1.board,
                                 score := s.score + fullRows s1.board * 100 } := by
  have hwf1 := mergePiece_wf s s1 hwf hm
  obtain ⟨b1, _, hs1⟩ := mergePiece_eq s s1 hm
  have hscore : s1.score = s.score := by rw [hs1]
  unfold lockPiece
  rw [hm]
  simp only
  rw [checkLines_eq s1 hwf1.1, hscore]

/-- The `else` branch of `movePieceDown`, in terms of the state `s1` left by `mergePiece`. -/
theorem movePieceDown_lock_eq (s s1 : State) (rnd : Fin SHAPES.length) (hwf : wfBoard s.board)
    (hcm : canMove s.board s.currentPiece.x (s.currentPiece.y + 1) s.currentPiece.shape
      = some false)
    (hm : mergePiece s = some s1) :
    movePieceDown s rnd =
      some (if s1.isGameOver then
          { s1 with board := clearedBoard s1.board,
                    score := s.score + fullRows s1.board * 100,
                    timerActive := false }
        else
          { s1 with board := clearedBoard s1.board,
                    score := s.score + fullRows s1.board * 100,
                    currentPiece := s1.nextPiece,
                    nextPiece := createNewPiece rnd }) := by
  unfold movePieceDown
  rw [hcm]
  simp only
  rw [lockPiece_eq s s1 hwf hm]
  simp only
  cases s1.isGameOver <;> simp

/-- C3, as the code has it: in a state that is not over, on a board of 20 rows
of 10 cells, with the piece on the grid and unable to move down,
`movePieceDown` merges the piece, clears the full lines of the merged board
and adds 100 per cleared line to the score; it goes to Over exactly when row 0
of the merged board (before the line clear) is occupied, and otherwise makes
the next piece the active one and creates a fresh next piece. -/
theorem movePieceDown_lock (s : State) (rnd : Fin SHAPES.length) (hwf : wfBoard s.board)
    (hin : pieceInGrid s.currentPiece) (hrun : s.isGameOver = false)
    (hcm : canMove s.board s.currentPiece.x (s.currentPiece.y + 1) s.currentPiece.shape
      = some false) :
    ∃ s1, mergePiece s = some s1 ∧
      movePieceDown s rnd =
        some (if rowOccupied (s1.board.headD []) then
            { s with board := clearedBoard s1.board,
                     score := s.score + fullRows s1.board * 100,
                     isGameOver := true,
                     timerActive := false }
          else
            { s with board := clearedBoard s1.board,
                     score := s.score + fullRows s1.board * 100,
                     currentPiece := s.nextPiece,
                     nextPiece := createNewPiece rnd }) := by
  obtain ⟨s1, hm⟩ := mergePiece_isSome s hwf hin
  refine ⟨s1, hm, ?_⟩
  rw [movePieceDown_lock_eq s s1 rnd hwf hcm hm]
  obtain ⟨b1, _, hs1⟩ := mergePiece_eq s s1 hm
  subst hs1
  simp only [hrun]
  cases rowOccupied (b1.headD []) <;> simp

/-- C3 as amended, at `stateTall`: the O piece locks at y = 0, row 1 is cleared,
the score becomes 100 and the game is over, row 0 of the merged board being occupied. -/
theorem movePieceDown_lock_witness :
    (wfBoard stateTall.board ∧ pieceInGrid stateTall.currentPiece ∧
      stateTall.isGameOver = false) ∧
    (∃ s1, mergePiece stateTall = some s1 ∧
      movePieceDown stateTall ⟨3, by decide⟩ =
        some (if rowOccupied (s1.board.headD []) then
            { stateTall with board := clearedBoard s1.board,
                             score := stateTall.score + fullRows s1.board * 100,
                             isGameOver := true,
                             timerActive := false }
          else
            { stateTall with board := clearedBoard s1.board,
                             score := stateTall.score + fullRows s1.board * 100,
                             currentPiece := stateTall.nextPiece,
                             nextPiece := createNewPiece ⟨3, by decide⟩ })) ∧
    movePieceDown stateTall ⟨3, by decide⟩ =
      some { stateTall with
        board := [emptyRow, [0, 0, 0, 0, 2, 2, 0, 0, 0, 0]] ++
                   List.replicate 18 [1, 1, 1, 1, 1, 0, 1, 1, 1, 1],
        score := 100, isGameOver := true, timerActive := false } :=
  ⟨by decide,
   movePieceDown_lock stateTall ⟨3, by decide⟩ (by decide) (by decide) (by decide) (by decide),
   by decide⟩

/-- C3 as stated fails at `stateTall`: the O piece locks at y = 0 and completes
row 1; after the line clear row 0 is empty, yet the game is over and the next
piece was not promoted. -/
theorem movePieceDown_over_with_empty_top_row :
    stateTall.isGameOver = false ∧ stateTall.gamePaused = false ∧
    canMove stateTall.board stateTall.currentPiece.x (stateTall.currentPiece.y + 1)
      stateTall.currentPiece.shape = some false ∧
    (movePieceDown stateTall ⟨3, by decide⟩).map
      (fun s => (rowOccupied (s.board.headD []), s.isGameOver,
        decide (s.currentPiece = stateTall.nextPiece)))
      = some (false, true, false) := by
  decide

theorem gameLoop_over (s : State) (rnd : Fin SHAPES.length) (h : s.isGameOver = true) :
    gameLoop s rnd = some s := by
  simp [gameLoop, h]

theorem ticks_over (s : State) (h : s.isGameOver = true) :
    ∀ rnds : List (Fin SHAPES.length), ticks s rnds = some s := by
  intro rnds
  induction rnds with
  | nil => rfl
  | cons rnd rest ih => simp only [ticks, gameLoop_over s rnd h]; exact ih

/-- C4: on a board of 20 rows of 10 cells, when the piece cannot move down and
row 0 holds a nonzero cell right after `mergePiece` (state `s1`),
`movePieceDown` ends in a state that is over, with the active and next piece
not replaced (the next piece is not promoted), and every later run of ticks
(`gameLoop`) leaves that state unchanged. -/
theorem movePieceDown_top_row_over (s s1 : State) (rnd : Fin SHAPES.length)
    (hwf : wfBoard s.board)
    (hcm : canMove s.board s.currentPiece.x (s.currentPiece.y + 1) s.currentPiece.shape
      = some false)
    (hm : mergePiece s = some s1) (htop : rowOccupied (s1.board.headD []) = true) :
    ∃ s2, movePieceDown s rnd = some s2 ∧ s2.isGameOver = true ∧
      s2.currentPiece = s.currentPiece ∧ s2.nextPiece = s.nextPiece ∧
      (∀ rnd1, gameLoop s2 rnd1 = some s2) ∧ ∀ rnds, ticks s2 rnds = some s2 := by
  obtain ⟨b1, _, hs1⟩ := mergePiece_eq s s1 hm
  have hover : s1.isGameOver = true := by
    rw [hs1] at htop ⊢
    simp only at htop ⊢
    rw [if_pos htop]
  have hcur : s1.currentPiece = s.currentPiece := by rw [hs1]
  have hnext : s1.nextPiece = s.nextPiece := by rw [hs1]
  refine ⟨_, movePieceDown_lock_eq s s1 rnd hwf hcm hm, ?_⟩
  rw [if_pos hover]
  refine ⟨hover, hcur, hnext, fun rnd1 => gameLoop_over _ rnd1 hover, ticks_over _ hover⟩

/-- C4 at `statePrefilled`: the I piece merged at y = 0 completes row 0 of the
pre-filled board; the game is over, the pieces stay, ticks change nothing. -/
theorem movePieceDown_top_row_over_witness :
    (wfBoard statePrefilled.board ∧
      canMove statePrefilled.board statePrefilled.currentPiece.x
        (statePrefilled.currentPiece.y + 1) statePrefilled.currentPiece.shape = some false ∧
      mergePiece statePrefilled = some { statePrefilled with
        board := [solidRow, [0, 0, 0, 1, 0, 0, 0, 0, 0, 0]] ++ List.replicate 18 emptyRow,
        isGameOver := true }) ∧
    ∃ s2, movePieceDown statePrefilled ⟨2, by decide⟩ = some s2 ∧ s2.isGameOver = true ∧
      s2.currentPiece = statePrefilled.currentPiece ∧ s2.nextPiece = statePrefilled.nextPiece ∧
      (∀ rnd1, gameLoop s2 rnd1 = some s2) ∧ ∀ rnds, ticks s2 rnds = some s2 :=
  ⟨by decide,
   movePieceDown_top_row_over statePrefilled _ ⟨2, by decide⟩ (by decide) (by decide)
     (show mergePiece statePrefilled = some { statePrefilled with
        board := [solidRow, [0, 0, 0, 1, 0, 0, 0, 0, 0, 0]] ++ List.replicate 18 emptyRow,
        isGameOver := true } by decide) (by decide)⟩

/-! ### handleKeyPress and createNewPiece -/

/-- C5 (the code at the failing input): the pause key pauses a running game,
but a second pause key, `p` or `P`, is dropped by the guard of
`handleKeyPress` and the game stays paused, although `togglePause` itself
would resume it. -/
theorem handleKeyPress_pause_key_when_paused :
    handleKeyPress (initialState ⟨0, by decide⟩ ⟨1, by decide⟩) "p" ⟨0, by decide⟩
      = some statePaused ∧
    handleKeyPress statePaused "p" ⟨0, by decide⟩ = some statePaused ∧
    handleKeyPress statePaused "P" ⟨0, by decide⟩ = some statePaused ∧
    togglePause statePaused = initialState ⟨0, by decide⟩ ⟨1, by decide⟩ := by
  decide

/-- C6 (the code at the failing input): the pieces made from the seven catalog
shapes have x = 3 (I) or 4, y = 0 and colour `shape[0][0]`; for T and Z that
colour is 0, while the first nonzero cell of the shape is 3 and 5. -/
theorem createNewPiece_color_top_left :
    (List.finRange SHAPES.length).map
        (fun rnd => ((createNewPiece rnd).x, (createNewPiece rnd).y, (createNewPiece rnd).color,
          firstNonzeroCell (createNewPiece rnd).shape))
      = [(3, 0, 1, 1), (4, 0, 2, 2), (4, 0, 0, 3), (4, 0, 4, 4), (4, 0, 0, 5), (4, 0, 6, 6),
         (4, 0, 7, 7)] ∧
    (∀ rnd, (createNewPiece rnd).shape = SHAPES.get rnd) := by
  decide

/-! ### rotate -/

theorem rotate_spec (M : Shape) (m n : Nat) (hm : 1 ≤ m) (hrect : rect m n M) :
    ∃ R, rotate M = some R ∧ rect n m R ∧
      (∀ i, i < n → R.getD i [] = (M.map fun r => r.getD i 0).reverse) ∧
      ∀ i j, i < n → j < m → entry R i j = entry M (m - 1 - j) i := by
  obtain ⟨hlen, hrows⟩ := hrect
  cases M with
  | nil => simp at hlen; omega
  | cons first rest =>
    have hfirst : first.length = n := hrows first (by simp)
    refine ⟨_, rfl, ⟨by simp [hfirst], ?_⟩, ?_, ?_⟩
    · intro r hr
      simp only [List.mem_map, List.mem_range] at hr
      obtain ⟨i, _, rfl⟩ := hr
      simp [← hlen]
    · intro i hi
      rw [hfirst]
      simp [List.getD_eq_getElem?_getD, hi]
    · intro i j hi hj
      unfold entry
      rw [hfirst]
      have h1 : ((List.range n).map fun i => ((first :: rest).map fun r => r.getD i 0).reverse).getD i []
          = ((first :: rest).map fun r => r.getD i 0).reverse := by
        simp [List.getD_eq_getElem?_getD, hi]
      rw [h1]
      have hj' : j < ((first :: rest).map fun r => r.getD i 0).length := by
        simp only [List.length_map]; omega
      rw [List.getD_eq_getElem?_getD, List.getElem?_reverse hj']
      simp only [List.length_map, hlen]
      rw [List.getElem?_map]
      rw [List.getD_eq_getElem?_getD (first :: rest)]
      have hk : m - 1 - j < (first :: rest).length := by omega
      rw [List.getElem?_eq_getElem hk]
      simp

theorem rect_ext (A B : Shape) (m n : Nat) (hA : rect m n A) (hB : rect m n B)
    (h : ∀ i j, i < m → j < n → entry A i j = entry B i j) : A = B := by
  apply List.ext_getElem (by rw [hA.1, hB.1])
  intro i hi1 hi2
  have hAi := hA.2 A[i] (List.getElem_mem _)
  have hBi := hB.2 B[i] (List.getElem_mem _)
  apply List.ext_getElem (by rw [hAi, hBi])
  intro j hj1 hj2
  have := h i j (by rw [← hA.1]; exact hi1) (by rw [← hAi]; exact hj1)
  unfold entry at this
  simpa [List.getD_eq_getElem?_getD, List.getElem?_eq_getElem, hi1, hi2, hj1, hj2] using this

theorem rotate4_rect (M : Shape) (m n : Nat) (hm : 1 ≤ m) (hn : 1 ≤ n) (hrect : rect m n M) :
    rotate4 M = some M := by
  obtain ⟨R1, h1, hr1, _, e1⟩ := rotate_spec M m n hm hrect
  obtain ⟨R2, h2, hr2, _, e2⟩ := rotate_spec R1 n m hn hr1
  obtain ⟨R3, h3, hr3, _, e3⟩ := rotate_spec R2 m n hm hr2
  obtain ⟨R4, h4, hr4, _, e4⟩ := rotate_spec R3 n m hn hr3
  unfold rotate4
  rw [h1, Option.some_bind, h2, Option.some_bind, h3, Option.some_bind, h4]
  congr 1
  apply rect_ext R4 M m n hr4 hrect
  intro i j hi hj
  rw [e4 i j hi hj, e3 (n - 1 - j) i (by omega) hi, e2 (m - 1 - i) (n - 1 - j) (by omega) (by omega),
    e1 (n - 1 - (n - 1 - j)) (m - 1 - i) (by omega) (by omega)]
  congr 1 <;> omega

/-- C7: four applications of `rotate` give back each of the seven catalog
shapes, and every rectangular matrix with at least one row and one column. -/
theorem rotate_four_times :
    (∀ shape ∈ SHAPES, rotate4 shape = some shape) ∧
    ∀ (M : Shape) (m n : Nat), 1 ≤ m → 1 ≤ n → rect m n M → rotate4 M = some M :=
  ⟨by decide, rotate4_rect⟩

/-- C7 at a 2 x 3 matrix with six different entries. -/
theorem rotate_four_times_witness :
    ((1 ≤ 2 ∧ 1 ≤ 3) ∧ rect 2 3 [[1, 2, 3], [4, 5, 6]]) ∧
    rotate4 [[1, 2, 3], [4, 5, 6]] = some [[1, 2, 3], [4, 5, 6]] :=
  ⟨by decide, rotate_four_times.2 [[1, 2, 3], [4, 5, 6]] 2 3 (by decide) (by decide) (by decide)⟩

/-- C8: on a rectangular matrix of m ≥ 1 rows and n columns `rotate` returns a
matrix of n rows and m columns; its row i is column i of the input reversed
(the transpose with each row reversed), so its entry (i, j) is the input's
entry (m-1-j, i): a quarter turn. -/
theorem rotate_quarter_turn (M : Shape) (m n : Nat) (hm : 1 ≤ m) (hrect : rect m n M) :
    ∃ R, rotate M = some R ∧ R.length = n ∧ (∀ r ∈ R, r.length = m) ∧
      (∀ i, i < n → R.getD i [] = (M.map fun r => r.getD i 0).reverse) ∧
      ∀ i j, i < n → j < m → entry R i j = entry M (m - 1 - j) i := by
  obtain ⟨R, hR, hrectR, hrow, hentry⟩ := rotate_spec M m n hm hrect
  exact ⟨R, hR, hrectR.1, hrectR.2, hrow, hentry⟩

/-- C8 at the L shape (2 x 3): the result is 3 x 2. -/
theorem rotate_quarter_turn_witness :
    (1 ≤ 2 ∧ rect 2 3 [[7, 7, 7], [7, 0, 0]]) ∧
    rotate [[7, 7, 7], [7, 0, 0]] = some [[7, 7], [0, 7], [0, 7]] ∧
    ∃ R, rotate [[7, 7, 7], [7, 0, 0]] = some R ∧ R.length = 3 ∧ (∀ r ∈ R, r.length = 2) ∧
      (∀ i, i < 3 → R.getD i [] = (([[7, 7, 7], [7, 0, 0]] : Shape).map fun r => r.getD i 0).reverse) ∧
      ∀ i j, i < 3 → j < 2 → entry R i j = entry [[7, 7, 7], [7, 0, 0]] (2 - 1 - j) i :=
  ⟨by decide, by decide,
   rotate_quarter_turn [[7, 7, 7], [7, 0, 0]] 2 3 (by decide) (by decide)⟩

/-! ### dropPiece and the score -/

theorem getElem?_of_filled (shape : Shape) (r c : Nat) (h : filled shape r c) :
    ∃ cells v, shape[r]? = some cells ∧ cells[c]? = some v ∧ v ≠ 0 := by
  unfold filled at h
  rw [List.getD_eq_getElem?_getD, List.getD_eq_getElem?_getD] at h
  cases hr : shape[r]? with
  | none => rw [hr] at h; simp at h
  | some cells =>
    rw [hr] at h
    simp only [Option.getD_some] at h
    cases hc : cells[c]? with
    | none => rw [hc] at h; simp at h
    | some v =>
      rw [hc] at h
      exact ⟨cells, v, rfl, hc, by simpa using h⟩

/-- When `canMove` holds at `(x, y)` with `y ≥ 0`, the piece is on the grid there. -/
theorem pieceInGrid_of_canMove (b : Board) (hwf : wfBoard b) (p : Piece) (y : Int) (hy : 0 ≤ y)
    (h : canMove b p.x y p.shape = some true) : pieceInGrid { p with y := y } := by
  obtain ⟨res, hres, hiff⟩ := canMoveRows_spec b hwf p.x y hy p.shape 0
  unfold canMove at h
  rw [h] at hres
  cases hres
  have hall := hiff.mp rfl
  intro r _ c _ hf
  obtain ⟨cells, v, hr, hc, hv⟩ := getElem?_of_filled p.shape r c hf
  have := hall r c cells v hr hc hv
  simp only [Nat.zero_add, cellFree] at this
  exact ⟨by simp only; omega, this.2.2.1, this.1, this.2.1⟩

/-- The `while` loop of `dropPiece` stops: with a filled cell at shape row `r0`
and fuel for the rows left below that cell, it returns the state with the
piece moved down to the first `y1 ≥ y` where `canMove(x, y1 + 1)` fails. -/
theorem dropLoop_spec (r0 c0 : Nat) : ∀ (fuel : Nat) (s : State), wfBoard s.board →
    0 ≤ s.currentPiece.y → pieceInGrid s.currentPiece →
    r0 < s.currentPiece.shape.length → c0 < (s.currentPiece.shape.getD r0 []).length →
    filled s.currentPiece.shape r0 c0 →
    (ROWS : Int) ≤ fuel + (s.currentPiece.y + r0) →
    ∃ y1, s.currentPiece.y ≤ y1 ∧
      dropLoop fuel s = some { s with currentPiece := { s.currentPiece with y := y1 } } ∧
      pieceInGrid { s.currentPiece with y := y1 } ∧
      canMove s.board s.currentPiece.x (y1 + 1) s.currentPiece.shape = some false := by
  intro fuel
  induction fuel with
  | zero =>
    intro s _ _ hin hr0 hc0 hf hfuel
    have := hin r0 hr0 c0 hc0 hf
    simp only [Nat.cast_zero, zero_add] at hfuel
    omega
  | succ fuel ih =>
    intro s hwf hy hin hr0 hc0 hf hfuel
    obtain ⟨res, hres, _⟩ := canMoveRows_spec s.board hwf s.currentPiece.x (s.currentPiece.y + 1)
      (by omega) s.currentPiece.shape 0
    cases res with
    | false =>
      refine ⟨s.currentPiece.y, le_refl _, ?_, hin, hres⟩
      simp only [dropLoop]
      unfold canMove
      rw [hres]
    | true =>
      have hin1 := pieceInGrid_of_canMove s.board hwf s.currentPiece (s.currentPiece.y + 1)
        (by omega) hres
      obtain ⟨y1, hle, hloop, hin2, hcm⟩ :=
        ih { s with currentPiece := { s.currentPiece with y := s.currentPiece.y + 1 } }
          hwf (by simp only; omega) hin1 hr0 hc0 hf (by simp only; push_cast at hfuel ⊢; omega)
      refine ⟨y1, by simp only at hle; omega, ?_, hin2, hcm⟩
      simp only [dropLoop]
      unfold canMove
      rw [hres]
      exact hloop

/-- The function `dropPiece`, in terms of the state `s0` left by its loop and the
state `s1` left by `mergePiece`. -/
theorem dropPiece_eq (s s0 s1 : State) (rnd : Fin SHAPES.length) (hwf : wfBoard s0.board)
    (hloop : dropLoop (ROWS + 1) s = some s0) (hm : mergePiece s0 = some s1) :
    dropPiece s rnd =
      some { s1 with board := clearedBoard s1.board,
                     score := s0.score + fullRows s1.board * 100,
                     currentPiece := s1.nextPiece,
                     nextPiece := createNewPiece rnd } := by
  unfold dropPiece
  rw [hloop]
  simp only
  rw [lockPiece_eq s0 s1 hwf hm]

/-- C9: whenever a piece locks, the score grows by exactly 100 n, n being the
number of full rows of the board right after the merge.  First for the `else`
branch of `movePieceDown` (the piece cannot move down), then for `dropPiece`
(piece at y ≥ 0 with a filled cell, so that its loop stops); in both the board
has 20 rows of 10 cells and the piece is on the grid, and the step returns. -/
theorem lock_score (s : State) (rnd : Fin SHAPES.length) (hwf : wfBoard s.board)
    (hin : pieceInGrid s.currentPiece) :
    (canMove s.board s.currentPiece.x (s.currentPiece.y + 1) s.currentPiece.shape = some false →
      ∃ s1 s2, mergePiece s = some s1 ∧ movePieceDown s rnd = some s2 ∧
        s2.score = s.score + 100 * fullRows s1.board) ∧
    (0 ≤ s.currentPiece.y →
      (∃ r c, r < s.currentPiece.shape.length ∧ c < (s.currentPiece.shape.getD r []).length ∧
        filled s.currentPiece.shape r c) →
      ∃ s0 s1 s2, dropLoop (ROWS + 1) s = some s0 ∧ mergePiece s0 = some s1 ∧
        dropPiece s rnd = some s2 ∧ s2.score = s.score + 100 * fullRows s1.board) := by
  constructor
  · intro hcm
    obtain ⟨s1, hm⟩ := mergePiece_isSome s hwf hin
    refine ⟨s1, _, hm, movePieceDown_lock_eq s s1 rnd hwf hcm hm, ?_⟩
    split <;> simp only <;> omega
  · rintro hy ⟨r0, c0, hr0, hc0, hf⟩
    obtain ⟨y1, _, hloop, hin1, _⟩ := dropLoop_spec r0 c0 (ROWS + 1) s hwf hy hin hr0 hc0 hf (by
      have := hin r0 hr0 c0 hc0 hf
      push_cast
      omega)
    obtain ⟨s1, hm⟩ := mergePiece_isSome
      { s with currentPiece := { s.currentPiece with y := y1 } } hwf hin1
    refine ⟨{ s with currentPiece := { s.currentPiece with y := y1 } }, s1, _, hloop, hm,
      dropPiece_eq s { s with currentPiece := { s.currentPiece with y := y1 } } s1 rnd hwf hloop hm,
      ?_⟩
    simp only
    omega

/-- C9 on `boardGap` (row 19 full except for column 0): the upright I piece
fills that cell, one row is cleared and the score goes from 300 to 400, both
when it locks by `movePieceDown` on the floor and by `dropPiece` from the top. -/
theorem lock_score_witness :
    (wfBoard stateGapFloor.board ∧ pieceInGrid stateGapFloor.currentPiece ∧
      canMove stateGapFloor.board stateGapFloor.currentPiece.x
        (stateGapFloor.currentPiece.y + 1) stateGapFloor.currentPiece.shape = some false) ∧
    (∃ s1 s2, mergePiece stateGapFloor = some s1 ∧
      movePieceDown stateGapFloor ⟨2, by decide⟩ = some s2 ∧
      s2.score = stateGapFloor.score + 100 * fullRows s1.board) ∧
    (∃ s0 s1 s2, dropLoop (ROWS + 1) stateGapTop = some s0 ∧ mergePiece s0 = some s1 ∧
      dropPiece stateGapTop ⟨2, by decide⟩ = some s2 ∧
      s2.score = stateGapTop.score + 100 * fullRows s1.board) ∧
    (mergePiece stateGapFloor).map (fun s1 => fullRows s1.board) = some 1 ∧
    (movePieceDown stateGapFloor ⟨2, by decide⟩).map (fun s2 => s2.score) = some 400 ∧
    (dropPiece stateGapTop ⟨2, by decide⟩).map (fun s2 => s2.score) = some 400 :=
  ⟨by decide,
   (lock_score stateGapFloor ⟨2, by decide⟩ (by decide) (by decide)).1 (by decide),
   (lock_score stateGapTop ⟨2, by decide⟩ (by decide) (by decide)).2 (by decide)
     ⟨0, 0, by decide, by decide, by decide⟩,
   by decide, by decide, by decide⟩

/-! ### checkLines with a single full row -/

theorem clearedBoard_of_one_full : ∀ (b : Board) (r : Nat), r < b.length →
    rowFull (b.getD r []) = true →
    (∀ i, i < b.length → i ≠ r → rowFull (b.getD i []) = false) →
    b.countP rowFull = 1 ∧ b.filter (fun x => !rowFull x) = b.eraseIdx r := by
  intro b
  induction b with
  | nil => intro r hr; simp at hr
  | cons a t ih =>
    intro r hr hfull hoth
    cases r with
    | zero =>
      simp only [List.getD_cons_zero] at hfull
      have ht : ∀ x ∈ t, rowFull x = false := by
        intro x hx
        obtain ⟨i, hi, rfl⟩ := List.getElem_of_mem hx
        have := hoth (i + 1) (by simp only [List.length_cons]; omega) (by omega)
        simpa [List.getD_eq_getElem?_getD, List.getElem?_eq_getElem hi] using this
      have hc : t.countP rowFull = 0 := by
        rw [List.countP_eq_zero]
        intro x hx; simp [ht x hx]
      have hfil : t.filter (fun x => !rowFull x) = t := by
        rw [List.filter_eq_self]
        intro x hx; simp [ht x hx]
      simp [List.countP_cons, hfull, hc, List.filter_cons, hfil]
    | succ r =>
      have ha : rowFull a = false := by
        have := hoth 0 (by simp) (by omega)
        simpa using this
      obtain ⟨hc, hfil⟩ := ih r (by simpa using hr) (by simpa using hfull) (by
        intro i hi hne
        have := hoth (i + 1) (by simp only [List.length_cons]; omega) (by omega)
        simpa using this)
      simp [List.countP_cons, ha, hc, List.filter_cons, hfil]

/-- C10, as the code has it: on a board of 20 rows of 10 cells whose only full
row is row r, `checkLines` counts exactly 1 cleared row (the score gains 100),
removes row r and puts an empty row at index 0; the rows above r move down by
one index and the rows below r keep their index. -/
theorem checkLines_one_full_row (s : State) (r : Nat) (hwf : wfBoard s.board) (hr : r < ROWS)
    (hfull : rowFull (s.board.getD r []) = true)
    (hothers : ∀ i, i < ROWS → i ≠ r → rowFull (s.board.getD i []) = false) :
    checkLinesLoop (ROWS + s.board.length + 1) s.board ((ROWS : Int) - 1) 0
      = some (emptyRow :: s.board.eraseIdx r, 1) ∧
    checkLines s = some { s with board := emptyRow :: s.board.eraseIdx r,
                                 score := s.score + 100 } ∧
    (∀ i, i < r → (emptyRow :: s.board.eraseIdx r)[i + 1]? = s.board[i]?) ∧
    (∀ i, r < i → (emptyRow :: s.board.eraseIdx r)[i]? = s.board[i]?) := by
  have hlen := hwf.1
  obtain ⟨hc, hfil⟩ := clearedBoard_of_one_full s.board r (by rw [hlen]; exact hr) hfull
    (by rw [hlen]; exact hothers)
  have hcb : clearedBoard s.board = emptyRow :: s.board.eraseIdx r := by
    unfold clearedBoard fullRows
    rw [hc, hfil]
    rfl
  have hfr : fullRows s.board = 1 := hc
  refine ⟨?_, ?_, ?_, ?_⟩
  · rw [checkLinesLoop_board s.board hlen, hcb, hfr]
  · rw [checkLines_eq s hlen, hcb, hfr]
  · intro i hi
    rw [List.getElem?_cons_succ, List.getElem?_eraseIdx_of_lt _ _ _ hi]
  · intro i hi
    cases i with
    | zero => omega
    | succ i =>
      rw [List.getElem?_cons_succ, List.getElem?_eraseIdx_of_ge _ _ _ (by omega)]

/-- C10 as amended, at `stateOneFull` (only row 2 is full): one row is counted,
rows 0 and 1 move down by one, the marked row 10 stays at index 10. -/
theorem checkLines_one_full_row_witness :
    (wfBoard stateOneFull.board ∧ 2 < ROWS ∧ rowFull (stateOneFull.board.getD 2 []) = true ∧
      ∀ i, i < ROWS → i ≠ 2 → rowFull (stateOneFull.board.getD i []) = false) ∧
    checkLines stateOneFull
      = some { stateOneFull with
          board := List.replicate 10 emptyRow ++ [[3, 0, 0, 0, 0, 0, 0, 0, 0, 0]] ++
            List.replicate 9 emptyRow,
          score := 100 } :=
  ⟨by decide,
   (checkLines_one_full_row stateOneFull 2 (by decide) (by decide) (by decide)
      (by decide)).2.1.trans (by decide)⟩

/-- C10 as stated fails at `stateOneFull`: row 2 is the only full row and one
row is cleared, but the marked row 10, which is not row 2, is still at index 10
afterwards; index 11 holds an empty row. -/
theorem checkLines_rows_below_stay :
    wfBoard stateOneFull.board ∧ rowFull (stateOneFull.board.getD 2 []) = true ∧
    (∀ i, i < ROWS → i ≠ 2 → rowFull (stateOneFull.board.getD i []) = false) ∧
    stateOneFull.board.getD 10 [] = [3, 0, 0, 0, 0, 0, 0, 0, 0, 0] ∧
    (checkLines stateOneFull).map (fun s => (s.board.getD 10 [], s.board.getD 11 [], s.score))
      = some ([3, 0, 0, 0, 0, 0, 0, 0, 0, 0], emptyRow, 100) := by
  decide

/-! ### Paused and Over -/

theorem step_halted (s : State) (h : s.gamePaused = true ∨ s.isGameOver = true) (e : Event) :
    step s e = some s := by
  cases e with
  | tick rnd => rcases h with h | h <;> simp [step, gameLoop, h]
  | key k rnd => rcases h with h | h <;> simp [step, handleKeyPress, h]

theorem run_halted (s : State) (h : s.gamePaused = true ∨ s.isGameOver = true) :
    ∀ events : List Event, run s events = some s := by
  intro events
  induction events with
  | nil => rfl
  | cons e rest ih => simp only [run, step_halted s h e]; exact ih

/-- C11: in a state that is Paused or Over a tick (`gameLoop`) and every key
delivered to `handleKeyPress` (left, right, down, rotate, hard drop among them)
return the state as it is: board, pieces, score and both flags unchanged.  So
after every finite sequence of ticks and key events an Over state is still the
same Over state. -/
theorem halted_noop (s : State) (h : s.gamePaused = true ∨ s.isGameOver = true) :
    (∀ rnd, gameLoop s rnd = some s) ∧
    (∀ key rnd, handleKeyPress s key rnd = some s) ∧
    (∀ events, run s events = some s) :=
  ⟨fun rnd => step_halted s h (Event.tick rnd),
   fun key rnd => step_halted s h (Event.key key rnd),
   run_halted s h⟩

/-- C11 at `stateOver`: a tick, the hard-drop key and a sequence of five events change nothing. -/
theorem halted_noop_witness :
    (stateOver.gamePaused = true ∨ stateOver.isGameOver = true) ∧
    gameLoop stateOver ⟨3, by decide⟩ = some stateOver ∧
    handleKeyPress stateOver " " ⟨3, by decide⟩ = some stateOver ∧
    run stateOver [Event.tick ⟨0, by decide⟩, Event.key "ArrowLeft" ⟨1, by decide⟩,
      Event.key "ArrowUp" ⟨2, by decide⟩, Event.key "p" ⟨3, by decide⟩,
      Event.key "ArrowDown" ⟨4, by decide⟩] = some stateOver :=
  ⟨by decide,
   (halted_noop stateOver (by decide)).1 _,
   (halted_noop stateOver (by decide)).2.1 _ _,
   (halted_noop stateOver (by decide)).2.2 _⟩

/-! ### movePieceLeft and movePieceRight at the edges -/

/-- With `y ≥ 0`, `canMove` is false when a filled cell falls outside the columns. -/
theorem canMove_false_of_column_out (b : Board) (hwf : wfBoard b) (x y : Int) (hy : 0 ≤ y)
    (shape : Shape) (r c : Nat) (hf : filled shape r c)
    (hout : x + c < 0 ∨ (COLS : Int) ≤ x + c) : canMove b x y shape = some false := by
  obtain ⟨res, hres, hiff⟩ := canMoveRows_spec b hwf x y hy shape 0
  obtain ⟨cells, v, hr, hc, hv⟩ := getElem?_of_filled shape r c hf
  cases res with
  | false => exact hres
  | true =>
    have := hiff.mp rfl r c cells v hr hc hv
    simp only [cellFree] at this
    omega

/-- C12: on a board of 20 rows of 10 cells with the piece at y ≥ 0: when the
piece has a filled cell in its leftmost column and x = 0, `canMove(x - 1, y)`
is false and `movePieceLeft` leaves the whole state (position, board, score)
unchanged; when it has a filled cell in its rightmost column and
x = COLS - shapeWidth, the same holds for `canMove(x + 1, y)` and `movePieceRight`. -/
theorem edge_move_rejected (s : State) (hwf : wfBoard s.board) (hy : 0 ≤ s.currentPiece.y) :
    (s.currentPiece.x = 0 → (∃ r, filled s.currentPiece.shape r 0) →
      canMove s.board (s.currentPiece.x - 1) s.currentPiece.y s.currentPiece.shape = some false ∧
      movePieceLeft s = some s) ∧
    (s.currentPiece.x = (COLS : Int) - (shapeWidth s.currentPiece.shape : Int) →
      (∃ r, filled s.currentPiece.shape r (shapeWidth s.currentPiece.shape - 1)) →
      canMove s.board (s.currentPiece.x + 1) s.currentPiece.y s.currentPiece.shape = some false ∧
      movePieceRight s = some s) := by
  constructor
  · rintro hx ⟨r, hf⟩
    have h := canMove_false_of_column_out s.board hwf (s.currentPiece.x - 1) s.currentPiece.y hy
      s.currentPiece.shape r 0 hf (by left; rw [hx]; decide)
    exact ⟨h, by simp only [movePieceLeft, h]⟩
  · rintro hx ⟨r, hf⟩
    have h := canMove_false_of_column_out s.board hwf (s.currentPiece.x + 1) s.currentPiece.y hy
      s.currentPiece.shape r (shapeWidth s.currentPiece.shape - 1) hf (by
        right; rw [hx]; omega)
    exact ⟨h, by simp only [movePieceRight, h]⟩

/-- C12 at the I piece on the left edge and the L piece on the right edge. -/
theorem edge_move_rejected_witness :
    ((wfBoard stateLeftEdge.board ∧ 0 ≤ stateLeftEdge.currentPiece.y ∧
        stateLeftEdge.currentPiece.x = 0 ∧ filled stateLeftEdge.currentPiece.shape 0 0) ∧
      canMove stateLeftEdge.board (stateLeftEdge.currentPiece.x - 1) stateLeftEdge.currentPiece.y
        stateLeftEdge.currentPiece.shape = some false ∧
      movePieceLeft stateLeftEdge = some stateLeftEdge) ∧
    ((wfBoard stateRightEdge.board ∧ 0 ≤ stateRightEdge.currentPiece.y ∧
        stateRightEdge.currentPiece.x
          = (COLS : Int) - (shapeWidth stateRightEdge.currentPiece.shape : Int) ∧
        filled stateRightEdge.currentPiece.shape 0
          (shapeWidth stateRightEdge.currentPiece.shape - 1)) ∧
      canMove stateRightEdge.board (stateRightEdge.currentPiece.x + 1)
        stateRightEdge.currentPiece.y stateRightEdge.currentPiece.shape = some false ∧
      movePieceRight stateRightEdge = some stateRightEdge) :=
  ⟨⟨by decide, (edge_move_rejected stateLeftEdge (by decide) (by decide)).1 (by decide)
      ⟨0, by decide⟩⟩,
   ⟨by decide, (edge_move_rejected stateRightEdge (by decide) (by decide)).2 (by decide)
      ⟨0, by decide⟩⟩⟩

/-! ### rotatePiece -/

/-- C15: on a board of 20 rows of 10 cells, with the piece at y ≥ 0 and a shape
of at least one row, `rotatePiece` returns; it changes nothing but the shape of
the active piece (anchor, colour, board, score and the rest of the state stay),
and the shape becomes `rotate(shape)` exactly when `canMove(x, y, rotate(shape))`
holds; otherwise the state is returned as it is. -/
theorem rotatePiece_spec (s : State) (hwf : wfBoard s.board) (hy : 0 ≤ s.currentPiece.y)
    (hshape : s.currentPiece.shape ≠ []) :
    ∃ rotated ok, rotate s.currentPiece.shape = some rotated ∧
      canMove s.board s.currentPiece.x s.currentPiece.y rotated = some ok ∧
      rotatePiece s = some (if ok = true then
          { s with currentPiece := { s.currentPiece with shape := rotated } }
        else s) ∧
      ∀ s1, rotatePiece s = some s1 →
        s1.currentPiece.x = s.currentPiece.x ∧ s1.currentPiece.y = s.currentPiece.y ∧
        s1.currentPiece.color = s.currentPiece.color ∧ s1.board = s.board ∧
        s1.score = s.score ∧
        (s1.currentPiece.shape = if ok = true then rotated else s.currentPiece.shape) := by
  have hrot : ∃ rotated, rotate s.currentPiece.shape = some rotated := by
    cases hs : s.currentPiece.shape with
    | nil => exact absurd hs hshape
    | cons first rest => exact ⟨_, rfl⟩
  obtain ⟨rotated, hrot⟩ := hrot
  obtain ⟨ok, hok, _⟩ := canMoveRows_spec s.board hwf s.currentPiece.x s.currentPiece.y hy rotated 0
  have hcm : canMove s.board s.currentPiece.x s.currentPiece.y rotated = some ok := hok
  have hres : rotatePiece s = some (if ok = true then
      { s with currentPiece := { s.currentPiece with shape := rotated } } else s) := by
    unfold rotatePiece
    rw [hrot]
    simp only
    rw [hcm]
    cases ok <;> simp
  refine ⟨rotated, ok, hrot, hcm, hres, ?_⟩
  intro s1 hs1
  rw [hres] at hs1
  cases ok with
  | false =>
    simp only [Bool.false_eq_true, if_false, Option.some.injEq] at hs1
    subst hs1
    simp
  | true =>
    simp only [if_true, Option.some.injEq] at hs1
    subst hs1
    simp

/-- C15 at two states: the flat I piece at the top is turned upright; the upright
I piece in column 8 is not turned, the state stays as it is. -/
theorem rotatePiece_spec_witness :
    (wfBoard stateRotateFree.board ∧ 0 ≤ stateRotateFree.currentPiece.y ∧
      stateRotateFree.currentPiece.shape ≠ []) ∧
    (∃ rotated ok, rotate stateRotateFree.currentPiece.shape = some rotated ∧
      canMove stateRotateFree.board stateRotateFree.currentPiece.x
        stateRotateFree.currentPiece.y rotated = some ok ∧
      rotatePiece stateRotateFree = some (if ok = true then
          { stateRotateFree with
            currentPiece := { stateRotateFree.currentPiece with shape := rotated } }
        else stateRotateFree) ∧
      ∀ s1, rotatePiece stateRotateFree = some s1 →
        s1.currentPiece.x = stateRotateFree.currentPiece.x ∧
        s1.currentPiece.y = stateRotateFree.currentPiece.y ∧
        s1.currentPiece.color = stateRotateFree.currentPiece.color ∧
        s1.board = stateRotateFree.board ∧ s1.score = stateRotateFree.score ∧
        (s1.currentPiece.shape
          = if ok = true then rotated else stateRotateFree.currentPiece.shape)) ∧
    rotatePiece stateRotateFree = some { stateRotateFree with
      currentPiece := { stateRotateFree.currentPiece with shape := [[1], [1], [1], [1]] } } ∧
    ((wfBoard stateRotateBlocked.board ∧ 0 ≤ stateRotateBlocked.currentPiece.y ∧
      stateRotateBlocked.currentPiece.shape ≠ []) ∧
      rotatePiece stateRotateBlocked = some stateRotateBlocked) :=
  ⟨by decide, rotatePiece_spec stateRotateFree (by decide) (by decide) (by decide),
   by decide, by decide⟩

/-! ### What mergePiece writes -/

theorem setCell_boardCell (b b1 : Board) (i j : Int) (v : Nat) (h : setCell b i j v = some b1)
    (i1 j1 : Int) :
    boardCell b1 i1 j1 = if i1 = i ∧ j1 = j then some v else boardCell b i1 j1 := by
  unfold setCell at h
  cases hidx : index? b i with
  | none => rw [hidx] at h; cases h
  | some r =>
    rw [hidx] at h
    simp only at h
    split at h
    · rename_i hj
      cases h
      unfold index? at hidx
      split at hidx
      · cases hidx
      · rename_i hi
        have hi0 : 0 ≤ i := by omega
        unfold boardCell index?
        by_cases hi1 : i1 < 0
        · have hne : ¬ (i1 = i ∧ j1 = j) := by omega
          simp [hi1, hne]
        · rw [if_neg hi1, if_neg hi1]
          by_cases hrow : i1 = i
          · subst hrow
            have hlt : i1.toNat < b.length := by
              by_contra hge
              rw [List.getElem?_eq_none (by omega)] at hidx
              cases hidx
            rw [List.getElem?_set_self hlt, hidx]
            simp only [Option.some_bind, true_and]
            by_cases hj1 : j1 < 0
            · have hne : ¬ (j1 = j) := by omega
              simp [hj1, hne]
            · rw [if_neg hj1, if_neg hj1]
              by_cases hcol : j1 = j
              · subst hcol
                rw [List.getElem?_set_self (by omega)]
                simp
              · rw [List.getElem?_set_ne (by omega)]
                simp [hcol]
          · rw [List.getElem?_set_ne (by omega)]
            simp [hrow]
    · cases h

theorem mergeCells_boardCell (color : Nat) (px py : Int) (y : Nat) :
    ∀ (cells : List Nat) (x : Nat) (b b1 : Board),
      mergeCells color px py y cells x b = some b1 → ∀ (i j : Int),
      ((∃ (c v : Nat), cells[c]? = some v ∧ v ≠ 0 ∧ i = py + y ∧ j = px + ((x + c : Nat) : Int)) →
        boardCell b1 i j = some color) ∧
      ((¬ ∃ (c v : Nat), cells[c]? = some v ∧ v ≠ 0 ∧ i = py + y ∧ j = px + ((x + c : Nat) : Int)) →
        boardCell b1 i j = boardCell b i j) := by
  intro cells
  induction cells with
  | nil =>
    intro x b b1 h i j
    simp only [mergeCells, Option.some.injEq] at h
    subst h
    simp
  | cons cell rest ih =>
    intro x b b1 h i j
    have hshift : (∃ (c v : Nat), rest[c]? = some v ∧ v ≠ 0 ∧ i = py + y ∧
          j = px + ((x + 1 + c : Nat) : Int)) ↔
        (∃ (c v : Nat), (cell :: rest)[c + 1]? = some v ∧ v ≠ 0 ∧ i = py + y ∧
          j = px + ((x + (c + 1) : Nat) : Int)) := by
      constructor
      · rintro ⟨c, v, hc, hv, hi, hj⟩
        exact ⟨c, v, by simpa using hc, hv, hi, by rw [hj, show x + 1 + c = x + (c + 1) by omega]⟩
      · rintro ⟨c, v, hc, hv, hi, hj⟩
        exact ⟨c, v, by simpa using hc, hv, hi, by rw [hj, show x + (c + 1) = x + 1 + c by omega]⟩
    have hsplit : (∃ (c v : Nat), (cell :: rest)[c]? = some v ∧ v ≠ 0 ∧ i = py + y ∧
          j = px + ((x + c : Nat) : Int)) ↔
        ((cell ≠ 0 ∧ i = py + y ∧ j = px + (x : Int)) ∨
         ∃ (c v : Nat), rest[c]? = some v ∧ v ≠ 0 ∧ i = py + y ∧
          j = px + ((x + 1 + c : Nat) : Int)) := by
      rw [hshift]
      constructor
      · rintro ⟨c, v, hc, hv, hi, hj⟩
        cases c with
        | zero =>
          simp only [List.getElem?_cons_zero, Option.some.injEq] at hc
          subst hc
          left
          exact ⟨hv, hi, by simpa using hj⟩
        | succ c => right; exact ⟨c, v, hc, hv, hi, hj⟩
      · rintro (⟨hv, hi, hj⟩ | ⟨c, v, hc, hv, hi, hj⟩)
        · exact ⟨0, cell, by simp, hv, hi, by simpa using hj⟩
        · exact ⟨c + 1, v, hc, hv, hi, hj⟩
    simp only [mergeCells] at h
    split at h
    · rename_i hcell
      cases hs : setCell b (py + y) (px + x) color with
      | none => rw [hs] at h; cases h
      | some b2 =>
        rw [hs] at h
        obtain ⟨hin, hout⟩ := ih (x + 1) b2 b1 h i j
        have hset := setCell_boardCell b b2 _ _ _ hs i j
        rw [hsplit]
        constructor
        · rintro (⟨_, hi, hj⟩ | hex)
          · by_cases hex : ∃ (c v : Nat), rest[c]? = some v ∧ v ≠ 0 ∧ i = py + y ∧
                j = px + ((x + 1 + c : Nat) : Int)
            · exact hin hex
            · rw [hout hex, hset, if_pos ⟨hi, hj⟩]
          · exact hin hex
        · intro hno
          have h1 : ¬ ∃ (c v : Nat), rest[c]? = some v ∧ v ≠ 0 ∧ i = py + y ∧
              j = px + ((x + 1 + c : Nat) : Int) := fun hex => hno (Or.inr hex)
          have h2 : ¬ (i = py + y ∧ j = px + (x : Int)) := fun hh => hno (Or.inl ⟨hcell, hh⟩)
          rw [hout h1, hset, if_neg h2]
    · rename_i hcell
      have hcell0 : cell = 0 := by simpa using hcell
      obtain ⟨hin, hout⟩ := ih (x + 1) b b1 h i j
      rw [hsplit]
      constructor
      · rintro (⟨hv, _, _⟩ | hex)
        · exact absurd hcell0 hv
        · exact hin hex
      · intro hno
        exact hout (fun hex => hno (Or.inr hex))

theorem mergeRows_boardCell (color : Nat) (px py : Int) :
    ∀ (rows : List (List Nat)) (y : Nat) (b b1 : Board),
      mergeRows color px py rows y b = some b1 → ∀ (i j : Int),
      ((∃ (r c : Nat) (cells : List Nat) (v : Nat), rows[r]? = some cells ∧ cells[c]? = some v ∧
          v ≠ 0 ∧ i = py + ((y + r : Nat) : Int) ∧ j = px + (c : Int)) →
        boardCell b1 i j = some color) ∧
      ((¬ ∃ (r c : Nat) (cells : List Nat) (v : Nat), rows[r]? = some cells ∧ cells[c]? = some v ∧
          v ≠ 0 ∧ i = py + ((y + r : Nat) : Int) ∧ j = px + (c : Int)) →
        boardCell b1 i j = boardCell b i j) := by
  intro rows
  induction rows with
  | nil =>
    intro y b b1 h i j
    simp only [mergeRows, Option.some.injEq] at h
    subst h
    simp
  | cons cells0 rest ih =>
    intro y b b1 h i j
    simp only [mergeRows] at h
    cases hs : mergeCells color px py y cells0 0 b with
    | none => rw [hs] at h; cases h
    | some b2 =>
      rw [hs] at h
      obtain ⟨hin, hout⟩ := ih (y + 1) b2 b1 h i j
      obtain ⟨hin0, hout0⟩ := mergeCells_boardCell color px py y cells0 0 b b2 hs i j
      simp only [Nat.zero_add] at hin0 hout0
      have hsplit : (∃ (r c : Nat) (cells : List Nat) (v : Nat), (cells0 :: rest)[r]? = some cells ∧
            cells[c]? = some v ∧ v ≠ 0 ∧ i = py + ((y + r : Nat) : Int) ∧ j = px + (c : Int)) ↔
          ((∃ (c v : Nat), cells0[c]? = some v ∧ v ≠ 0 ∧ i = py + y ∧ j = px + (c : Int)) ∨
           ∃ (r c : Nat) (cells : List Nat) (v : Nat), rest[r]? = some cells ∧ cells[c]? = some v ∧
            v ≠ 0 ∧ i = py + ((y + 1 + r : Nat) : Int) ∧ j = px + (c : Int)) := by
        constructor
        · rintro ⟨r, c, cells, v, hr, hc, hv, hi, hj⟩
          cases r with
          | zero =>
            simp only [List.getElem?_cons_zero, Option.some.injEq] at hr
            subst hr
            left
            exact ⟨c, v, hc, hv, by simpa using hi, hj⟩
          | succ r =>
            right
            exact ⟨r, c, cells, v, by simpa using hr, hc, hv,
              by rw [hi, show y + (r + 1) = y + 1 + r by omega], hj⟩
        · rintro (⟨c, v, hc, hv, hi, hj⟩ | ⟨r, c, cells, v, hr, hc, hv, hi, hj⟩)
          · exact ⟨0, c, cells0, v, by simp, hc, hv, by simpa using hi, hj⟩
          · exact ⟨r + 1, c, cells, v, by simpa using hr, hc, hv,
              by rw [hi, show y + 1 + r = y + (r + 1) by omega], hj⟩
      rw [hsplit]
      constructor
      · rintro (h0 | hex)
        · by_cases hex : ∃ (r c : Nat) (cells : List Nat) (v : Nat), rest[r]? = some cells ∧
              cells[c]? = some v ∧ v ≠ 0 ∧ i = py + ((y + 1 + r : Nat) : Int) ∧ j = px + (c : Int)
          · exact hin hex
          · rw [hout hex]; exact hin0 h0
        · exact hin hex
      · intro hno
        rw [hout (fun hex => hno (Or.inr hex))]
        exact hout0 (fun h0 => hno (Or.inl h0))

/-- C16: on a board of 20 rows of 10 cells with the filled cells of the piece
on the grid, `mergePiece` returns a state whose board holds the piece's colour
at every cell (y+r, x+c) under a filled shape cell (r, c); every other board
cell, the score and the piece (and the next piece and the pause flag) are
unchanged, and the board keeps its 20 rows of 10 cells. -/
theorem mergePiece_spec (s : State) (hwf : wfBoard s.board) (hin : pieceInGrid s.currentPiece) :
    ∃ s1, mergePiece s = some s1 ∧
      (∀ r c, filled s.currentPiece.shape r c →
        boardCell s1.board (s.currentPiece.y + r) (s.currentPiece.x + c)
          = some s.currentPiece.color) ∧
      (∀ (i j : Int), (¬ ∃ (r c : Nat), filled s.currentPiece.shape r c ∧
          i = s.currentPiece.y + r ∧ j = s.currentPiece.x + c) →
        boardCell s1.board i j = boardCell s.board i j) ∧
      s1.score = s.score ∧ s1.currentPiece = s.currentPiece ∧ s1.nextPiece = s.nextPiece ∧
      s1.gamePaused = s.gamePaused ∧ wfBoard s1.board := by
  obtain ⟨s1, hm⟩ := mergePiece_isSome s hwf hin
  have hwf1 := mergePiece_wf s s1 hwf hm
  obtain ⟨b1, hb1, hs1⟩ := mergePiece_eq s s1 hm
  subst hs1
  refine ⟨_, hm, ?_, ?_, rfl, rfl, rfl, rfl, hwf1⟩
  · intro r c hf
    obtain ⟨cells, v, hr, hc, hv⟩ := getElem?_of_filled _ r c hf
    exact (mergeRows_boardCell _ _ _ _ 0 _ _ hb1 _ _).1
      ⟨r, c, cells, v, hr, hc, hv, by simp, rfl⟩
  · intro i j hno
    apply (mergeRows_boardCell _ _ _ _ 0 _ _ hb1 i j).2
    rintro ⟨r, c, cells, v, hr, hc, hv, hi, hj⟩
    exact hno ⟨r, c, (filled_of_getElem? _ r c cells v hr hc hv).2.2, by simpa using hi, hj⟩

/-- C16 at `stateGapFloor`: the upright I piece in column 0, rows 16 to 19, is
written into the board; nothing else changes. -/
theorem mergePiece_spec_witness :
    (wfBoard stateGapFloor.board ∧ pieceInGrid stateGapFloor.currentPiece) ∧
    (∃ s1, mergePiece stateGapFloor = some s1 ∧
      (∀ r c, filled stateGapFloor.currentPiece.shape r c →
        boardCell s1.board (stateGapFloor.currentPiece.y + r) (stateGapFloor.currentPiece.x + c)
          = some stateGapFloor.currentPiece.color) ∧
      (∀ (i j : Int), (¬ ∃ (r c : Nat), filled stateGapFloor.currentPiece.shape r c ∧
          i = stateGapFloor.currentPiece.y + r ∧ j = stateGapFloor.currentPiece.x + c) →
        boardCell s1.board i j = boardCell stateGapFloor.board i j) ∧
      s1.score = stateGapFloor.score ∧ s1.currentPiece = stateGapFloor.currentPiece ∧
      s1.nextPiece = stateGapFloor.nextPiece ∧
      s1.gamePaused = stateGapFloor.gamePaused ∧ wfBoard s1.board) ∧
    mergePiece stateGapFloor = some { stateGapFloor with
      board := List.replicate 16 emptyRow ++
        List.replicate 3 [1, 0, 0, 0, 0, 0, 0, 0, 0, 0] ++ [solidRow] } :=
  ⟨by decide, mergePiece_spec stateGapFloor (by decide) (by decide), by decide⟩

/-! ### canMove below row 0 and the loop of dropPiece -/

theorem canMoveCells_low (b : Board) (hwf : wfBoard b) (x y : Int) (row : Nat) :
    ∀ (cells : List Nat) (col : Nat),
    (∀ (c v : Nat), cells[c]? = some v → v ≠ 0 → 0 ≤ y + row) →
    ∃ res, canMoveCells b x y row cells col = some res ∧
      (res = true ↔ ∀ (c v : Nat), cells[c]? = some v → v ≠ 0 →
        cellFree b (y + row) (x + ((col + c : Nat) : Int))) := by
  intro cells
  induction cells with
  | nil => intro col _; exact ⟨true, rfl, by simp⟩
  | cons cell rest ih =>
    intro col hlow
    obtain ⟨res, hres, hiff⟩ := ih (col + 1) (fun c v hc hv => hlow (c + 1) v (by simpa using hc) hv)
    have hstep : (∀ (c v : Nat), (cell :: rest)[c]? = some v → v ≠ 0 →
          cellFree b (y + row) (x + ((col + c : Nat) : Int))) ↔
        ((cell ≠ 0 → cellFree b (y + row) (x + (col : Int))) ∧
          ∀ (c v : Nat), rest[c]? = some v → v ≠ 0 →
            cellFree b (y + row) (x + ((col + 1 + c : Nat) : Int))) := by
      constructor
      · intro h
        refine ⟨fun hv => by simpa using h 0 cell (by simp) hv, ?_⟩
        intro c v hc hv
        have := h (c + 1) v (by simpa using hc) hv
        rwa [show col + (c + 1) = col + 1 + c by omega] at this
      · rintro ⟨h0, h1⟩ c v hc hv
        cases c with
        | zero =>
          simp only [List.getElem?_cons_zero, Option.some.injEq] at hc
          subst hc
          simpa using h0 hv
        | succ c =>
          have := h1 c v (by simpa using hc) hv
          rwa [show col + 1 + c = col + (c + 1) by omega] at this
    rw [hstep]
    by_cases hcell : cell = 0
    · refine ⟨res, ?_, ?_⟩
      · simp only [canMoveCells, hcell, ne_eq, not_true_eq_false, if_false]
        exact hres
      · rw [hiff]
        simp [hcell]
    · by_cases hout : x + col < 0 ∨ x + col ≥ COLS ∨ y + row ≥ ROWS
      · refine ⟨false, ?_, ?_⟩
        · simp only [canMoveCells, ne_eq, hcell, not_false_eq_true, if_true, hout]
        · simp only [Bool.false_eq_true, false_iff]
          rintro ⟨h0, _⟩
          have := h0 hcell
          simp only [cellFree] at this
          omega
      · have hin : 0 ≤ x + col ∧ x + col < COLS ∧ y + row < ROWS := by omega
        have hy := hlow 0 cell (by simp) hcell
        obtain ⟨r, v, hr, hv, hbc⟩ :=
          boardCell_of_wf b hwf (y + row) (x + col) hy hin.2.2 hin.1 hin.2.1
        by_cases hv0 : v = 0
        · refine ⟨res, ?_, ?_⟩
          · simp only [canMoveCells, ne_eq, hcell, not_false_eq_true, if_true, hout, if_false, hr,
              hv, hv0, not_true_eq_false]
            exact hres
          · rw [hiff]
            constructor
            · intro h
              exact ⟨fun _ => ⟨hin.1, hin.2.1, hin.2.2, by rw [hbc, hv0]⟩, h⟩
            · intro h; exact h.2
        · refine ⟨false, ?_, ?_⟩
          · simp only [canMoveCells, ne_eq, hcell, not_false_eq_true, if_true, hout, if_false, hr,
              hv, hv0]
          · simp only [Bool.false_eq_true, false_iff]
            rintro ⟨h0, _⟩
            have := h0 hcell
            simp only [cellFree] at this
            rw [hbc] at this
            exact hv0 (Option.some.inj this.2.2.2)

theorem canMoveRows_low (b : Board) (hwf : wfBoard b) (x y : Int) :
    ∀ (rows : List (List Nat)) (row : Nat),
    (∀ (r c : Nat) (cells : List Nat) (v : Nat),
      rows[r]? = some cells → cells[c]? = some v → v ≠ 0 → 0 ≤ y + ((row + r : Nat) : Int)) →
    ∃ res, canMoveRows b x y rows row = some res ∧
      (res = true ↔ ∀ (r c : Nat) (cells : List Nat) (v : Nat),
        rows[r]? = some cells → cells[c]? = some v → v ≠ 0 →
        cellFree b (y + ((row + r : Nat) : Int)) (x + (c : Int))) := by
  intro rows
  induction rows with
  | nil => intro row _; exact ⟨true, rfl, by simp⟩
  | cons cells rest ih =>
    intro row hlow
    obtain ⟨res1, hres1, hiff1⟩ := canMoveCells_low b hwf x y row cells 0 (by
      intro c v hc hv
      simpa using hlow 0 c cells v (by simp) hc hv)
    obtain ⟨res2, hres2, hiff2⟩ := ih (row + 1) (by
      intro r c cs v hr hc hv
      have := hlow (r + 1) c cs v (by simpa using hr) hc hv
      rwa [show row + (r + 1) = row + 1 + r by omega] at this)
    simp only [Nat.zero_add] at hiff1
    cases res1 with
    | false =>
      refine ⟨false, ?_, ?_⟩
      · simp only [canMoveRows, hres1]
      · simp only [Bool.false_eq_true, false_iff] at hiff1 ⊢
        intro h
        apply hiff1
        intro c v hc hv
        have := h 0 c cells v (by simp) hc hv
        simpa using this
    | true =>
      refine ⟨res2, ?_, ?_⟩
      · simp only [canMoveRows, hres1]
        exact hres2
      · have h1 := hiff1.mp rfl
        rw [hiff2]
        constructor
        · intro h r c cs v hr hc hv
          cases r with
          | zero =>
            simp only [List.getElem?_cons_zero, Option.some.injEq] at hr
            subst hr
            simpa using h1 c v hc hv
          | succ r =>
            have := h r c cs v (by simpa using hr) hc hv
            rwa [show row + 1 + r = row + (r + 1) by omega] at this
        · intro h r c cs v hr hc hv
          have := h (r + 1) c cs v (by simpa using hr) hc hv
          rwa [show row + (r + 1) = row + 1 + r by omega] at this

theorem index?_some_nonneg {α : Type} (xs : List α) (i : Int) (a : α) (h : index? xs i = some a) :
    0 ≤ i := by
  unfold index? at h
  split at h
  · cases h
  · omega

theorem canMoveCells_true_low (b : Board) (x y : Int) (row : Nat) :
    ∀ (cells : List Nat) (col : Nat), canMoveCells b x y row cells col = some true →
      ∀ (c v : Nat), cells[c]? = some v → v ≠ 0 → 0 ≤ y + row := by
  intro cells
  induction cells with
  | nil => intro col _ c v hc; simp at hc
  | cons cell rest ih =>
    intro col h c v hc hv
    simp only [canMoveCells] at h
    split at h
    · split at h
      · cases h
      · cases hidx : index? b (y + row) with
        | none => rw [hidx] at h; cases h
        | some r => exact index?_some_nonneg b _ r hidx
    · rename_i hcell
      cases c with
      | zero =>
        simp only [List.getElem?_cons_zero, Option.some.injEq] at hc
        subst hc
        exact absurd hv hcell
      | succ c => exact ih (col + 1) h c v (by simpa using hc) hv

theorem canMoveRows_true_low (b : Board) (x y : Int) :
    ∀ (rows : List (List Nat)) (row : Nat), canMoveRows b x y rows row = some true →
      ∀ (r c : Nat) (cells : List Nat) (v : Nat),
        rows[r]? = some cells → cells[c]? = some v → v ≠ 0 → 0 ≤ y + ((row + r : Nat) : Int) := by
  intro rows
  induction rows with
  | nil => intro row _ r c cells v hr; simp at hr
  | cons cells0 rest ih =>
    intro row h r c cells v hr hc hv
    simp only [canMoveRows] at h
    cases h1 : canMoveCells b x y row cells0 0 with
    | none => rw [h1] at h; cases h
    | some res =>
      cases res with
      | false => rw [h1] at h; cases h
      | true =>
        rw [h1] at h
        simp only at h
        cases r with
        | zero =>
          simp only [List.getElem?_cons_zero, Option.some.injEq] at hr
          subst hr
          simpa using canMoveCells_true_low b x y row cells0 0 h1 c v hc hv
        | succ r =>
          have := ih (row + 1) h r c cells v (by simpa using hr) hc hv
          rwa [show row + 1 + r = row + (r + 1) by omega] at this

theorem canMove_of_low (b : Board) (hwf : wfBoard b) (x y : Int) (shape : Shape)
    (hlow : ∀ r c, filled shape r c → 0 ≤ y + r) :
    ∃ res, canMove b x y shape = some res ∧
      (res = true ↔ ∀ r c, filled shape r c → cellFree b (y + r) (x + c)) := by
  obtain ⟨res, hres, hiff⟩ := canMoveRows_low b hwf x y shape 0 (by
    intro r c cells v hr hc hv
    simpa using hlow r c (filled_of_getElem? shape r c cells v hr hc hv).2.2)
  refine ⟨res, hres, ?_⟩
  rw [hiff]
  constructor
  · intro h r c hf
    obtain ⟨cells, v, hr, hc, hv⟩ := getElem?_of_filled shape r c hf
    simpa using h r c cells v hr hc hv
  · intro h r c cells v hr hc hv
    simpa using h r c (filled_of_getElem? shape r c cells v hr hc hv).2.2

theorem canMove_true_cellFree (b : Board) (hwf : wfBoard b) (x y : Int) (shape : Shape)
    (h : canMove b x y shape = some true) :
    ∀ r c, filled shape r c → 0 ≤ y + r ∧ cellFree b (y + r) (x + c) := by
  have hlow : ∀ r c, filled shape r c → 0 ≤ y + r := by
    intro r c hf
    obtain ⟨cells, v, hr, hc, hv⟩ := getElem?_of_filled shape r c hf
    simpa using canMoveRows_true_low b x y shape 0 h r c cells v hr hc hv
  obtain ⟨res, hres, hiff⟩ := canMove_of_low b hwf x y shape hlow
  rw [h] at hres
  cases hres
  intro r c hf
  exact ⟨hlow r c hf, hiff.mp rfl r c hf⟩

theorem pieceInGrid_of_canMove_true (b : Board) (hwf : wfBoard b) (p : Piece) (y : Int)
    (h : canMove b p.x y p.shape = some true) : pieceInGrid { p with y := y } := by
  intro r _ c _ hf
  obtain ⟨h0, h1⟩ := canMove_true_cellFree b hwf p.x y p.shape h r c hf
  simp only [cellFree] at h1
  exact ⟨h0, h1.2.2.1, h1.1, h1.2.1⟩

theorem dropLoop_low (r0 c0 : Nat) : ∀ (fuel : Nat) (s : State), wfBoard s.board →
    (∀ r c, filled s.currentPiece.shape r c → 0 ≤ s.currentPiece.y + r) →
    filled s.currentPiece.shape r0 c0 → 1 ≤ fuel →
    (ROWS : Int) ≤ fuel + (s.currentPiece.y + r0) →
    ∃ y1, s.currentPiece.y ≤ y1 ∧
      dropLoop fuel s = some { s with currentPiece := { s.currentPiece with y := y1 } } ∧
      canMove s.board s.currentPiece.x (y1 + 1) s.currentPiece.shape = some false ∧
      (∀ y2, s.currentPiece.y ≤ y2 → y2 < y1 →
        canMove s.board s.currentPiece.x (y2 + 1) s.currentPiece.shape = some true) ∧
      (s.currentPiece.y < y1 → y1 + r0 < ROWS) := by
  intro fuel
  induction fuel with
  | zero => intro s _ _ _ h1; omega
  | succ fuel ih =>
    intro s hwf hlow hf _ hfuel
    obtain ⟨res, hres, hiff⟩ := canMove_of_low s.board hwf s.currentPiece.x (s.currentPiece.y + 1)
      s.currentPiece.shape (fun r c h => by have := hlow r c h; omega)
    cases res with
    | false =>
      refine ⟨s.currentPiece.y, le_refl _, ?_, hres, fun y2 h1 h2 => by omega, fun h => by omega⟩
      simp only [dropLoop]
      rw [hres]
    | true =>
      have hfree := hiff.mp rfl r0 c0 hf
      simp only [cellFree] at hfree
      have hbelow : s.currentPiece.y + 1 + r0 < ROWS := hfree.2.2.1
      obtain ⟨y1, hle, hloop, hcm, hfirst, hbound⟩ :=
        ih { s with currentPiece := { s.currentPiece with y := s.currentPiece.y + 1 } }
          hwf (fun r c h => by have := hlow r c h; simp only; omega) hf
          (by push_cast at hfuel; omega) (by simp only; push_cast at hfuel ⊢; omega)
      simp only at hle hcm hfirst hbound
      refine ⟨y1, by omega, ?_, hcm, ?_, ?_⟩
      · simp only [dropLoop]
        rw [hres]
        exact hloop
      · intro y2 h1 h2
        by_cases heq : y2 = s.currentPiece.y
        · rw [heq]; exact hres
        · exact hfirst y2 (by omega) h2
      · intro _
        by_cases heq : y1 = s.currentPiece.y + 1
        · rw [heq]; exact hbelow
        · exact hbound (by omega)

/-- C13: on a board of 20 rows of 10 cells, with the piece at a position where
`canMove(x, y)` holds and a filled cell in its shape, `dropPiece` returns: the
piece goes down, x, shape and colour unchanged, to the first y1 ≥ y at which
`canMove(x, y1 + 1)` fails, is merged there, the full lines are cleared and the
next piece is promoted.  On the empty board with score 0 the O piece spawned at
x = 4, y = 0 locks in rows 18 and 19, columns 4 and 5, every other cell stays
empty and the score stays 0. -/
theorem dropPiece_spec :
    (∀ r2 rnd, (createNewPiece ⟨1, by decide⟩).x = 4 ∧ (createNewPiece ⟨1, by decide⟩).y = 0 ∧
      dropPiece (initialState ⟨1, by decide⟩ r2) rnd =
        some { initialState ⟨1, by decide⟩ r2 with
          board := List.replicate 18 emptyRow ++ List.replicate 2 [0, 0, 0, 0, 2, 2, 0, 0, 0, 0],
          score := 0,
          currentPiece := createNewPiece r2,
          nextPiece := createNewPiece rnd }) ∧
    ∀ (s : State) (rnd : Fin SHAPES.length), wfBoard s.board →
      canMove s.board s.currentPiece.x s.currentPiece.y s.currentPiece.shape = some true →
      (∃ r c, filled s.currentPiece.shape r c) →
      ∃ y1 s1, s.currentPiece.y ≤ y1 ∧
        canMove s.board s.currentPiece.x (y1 + 1) s.currentPiece.shape = some false ∧
        (∀ y2, s.currentPiece.y ≤ y2 → y2 < y1 →
          canMove s.board s.currentPiece.x (y2 + 1) s.currentPiece.shape = some true) ∧
        mergePiece { s with currentPiece := { s.currentPiece with y := y1 } } = some s1 ∧
        dropPiece s rnd =
          some { s1 with board := clearedBoard s1.board,
                         score := s.score + fullRows s1.board * 100,
                         currentPiece := s.nextPiece,
                         nextPiece := createNewPiece rnd } := by
  refine ⟨by decide, ?_⟩
  rintro s rnd hwf hcm ⟨r0, c0, hf⟩
  have hgrid := canMove_true_cellFree s.board hwf _ _ _ hcm
  have hr0 := (hgrid r0 c0 hf).1
  obtain ⟨y1, hle, hloop, hstop, hfirst, _⟩ := dropLoop_low r0 c0 (ROWS + 1) s hwf
    (fun r c h => (hgrid r c h).1) hf (by omega) (by push_cast; omega)
  have hat : canMove s.board s.currentPiece.x y1 s.currentPiece.shape = some true := by
    by_cases heq : y1 = s.currentPiece.y
    · rw [heq]; exact hcm
    · have := hfirst (y1 - 1) (by omega) (by omega)
      rwa [sub_add_cancel] at this
  have hin1 := pieceInGrid_of_canMove_true s.board hwf s.currentPiece y1 hat
  obtain ⟨s1, hm⟩ := mergePiece_isSome
    { s with currentPiece := { s.currentPiece with y := y1 } } hwf hin1
  refine ⟨y1, s1, hle, hstop, hfirst, hm, ?_⟩
  rw [dropPiece_eq s { s with currentPiece := { s.currentPiece with y := y1 } } s1 rnd hwf hloop hm]
  obtain ⟨b1, _, hs1⟩ := mergePiece_eq _ s1 hm
  rw [hs1]

/-- C13 at `stateGapTop`: the upright I piece falls from y = 0 in column 0 and
locks at y = 16, where it completes row 19. -/
theorem dropPiece_spec_witness :
    (wfBoard stateGapTop.board ∧
      canMove stateGapTop.board stateGapTop.currentPiece.x stateGapTop.currentPiece.y
        stateGapTop.currentPiece.shape = some true ∧
      filled stateGapTop.currentPiece.shape 0 0) ∧
    (∃ y1 s1, stateGapTop.currentPiece.y ≤ y1 ∧
      canMove stateGapTop.board stateGapTop.currentPiece.x (y1 + 1)
        stateGapTop.currentPiece.shape = some false ∧
      (∀ y2, stateGapTop.currentPiece.y ≤ y2 → y2 < y1 →
        canMove stateGapTop.board stateGapTop.currentPiece.x (y2 + 1)
          stateGapTop.currentPiece.shape = some true) ∧
      mergePiece { stateGapTop with currentPiece := { stateGapTop.currentPiece with y := y1 } }
        = some s1 ∧
      dropPiece stateGapTop ⟨2, by decide⟩ =
        some { s1 with board := clearedBoard s1.board,
                       score := stateGapTop.score + fullRows s1.board * 100,
                       currentPiece := stateGapTop.nextPiece,
                       nextPiece := createNewPiece ⟨2, by decide⟩ }) ∧
    dropLoop (ROWS + 1) stateGapTop = some stateGapFloor ∧
    dropPiece stateGapTop ⟨2, by decide⟩ =
      some { stateGapTop with
        board := List.replicate 17 emptyRow ++ List.replicate 3 [1, 0, 0, 0, 0, 0, 0, 0, 0, 0],
        score := 400,
        currentPiece := stateGapTop.nextPiece,
        nextPiece := createNewPiece ⟨2, by decide⟩ } :=
  ⟨by decide,
   dropPiece_spec.2 stateGapTop ⟨2, by decide⟩ (by decide) (by decide) ⟨0, 0, by decide⟩,
   by decide, by decide⟩

/-! ### dropPiece against repeated movePieceDown -/

/-- Repeating `movePieceDown` until the lock is the loop of `dropPiece` followed
by one locking call of `movePieceDown`. -/
theorem moveDownUntilLock_eq (rnd : Fin SHAPES.length) : ∀ (fuel : Nat) (s : State),
    moveDownUntilLock fuel s rnd = (dropLoop fuel s).bind (fun s0 => movePieceDown s0 rnd) := by
  intro fuel
  induction fuel with
  | zero => intro s; rfl
  | succ fuel ih =>
    intro s
    simp only [moveDownUntilLock, dropLoop]
    cases hcm : canMove s.board s.currentPiece.x (s.currentPiece.y + 1) s.currentPiece.shape with
    | none => rfl
    | some res =>
      cases res with
      | false => simp only [Option.some_bind]
      | true =>
        simp only [movePieceDown, hcm]
        exact ih _

/-- C14: on a board of 20 rows of 10 cells, with the piece on the grid and a
filled cell in its shape, `dropPiece` and `movePieceDown` repeated until the
lock both return, with the same board, score and game-over flag.  When the game
is not over after the lock the two states are equal (same active and next
piece, for the same random index).  When it is over they differ:
`dropPiece` has promoted the next piece and drawn a new one, `movePieceDown`
keeps the locked piece active and the next piece waiting. -/
theorem dropPiece_vs_moveDown (s : State) (rnd : Fin SHAPES.length) (hwf : wfBoard s.board)
    (hin : pieceInGrid s.currentPiece) (hfilled : ∃ r c, filled s.currentPiece.shape r c) :
    ∃ s0 a b, dropLoop (ROWS + 1) s = some s0 ∧ dropPiece s rnd = some a ∧
      moveDownUntilLock (ROWS + 1) s rnd = some b ∧
      a.board = b.board ∧ a.score = b.score ∧ a.isGameOver = b.isGameOver ∧
      (b.isGameOver = false → a = b) ∧
      (b.isGameOver = true →
        a.currentPiece = s.nextPiece ∧ a.nextPiece = createNewPiece rnd ∧
        b.currentPiece = s0.currentPiece ∧ b.nextPiece = s.nextPiece) := by
  obtain ⟨r0, c0, hf⟩ := hfilled
  obtain ⟨hr0, hc0, _⟩ : r0 < s.currentPiece.shape.length ∧
      c0 < (s.currentPiece.shape.getD r0 []).length ∧ filled s.currentPiece.shape r0 c0 := by
    obtain ⟨cells, v, hr, hc, hv⟩ := getElem?_of_filled _ r0 c0 hf
    exact filled_of_getElem? _ r0 c0 cells v hr hc hv
  have hlow : ∀ r c, filled s.currentPiece.shape r c → 0 ≤ s.currentPiece.y + r := by
    intro r c h
    obtain ⟨cells, v, hr, hc, hv⟩ := getElem?_of_filled _ r c h
    obtain ⟨h1, h2, _⟩ := filled_of_getElem? _ r c cells v hr hc hv
    exact (hin r h1 c h2 h).1
  obtain ⟨y1, hle, hloop, hstop, hfirst, _⟩ := dropLoop_low r0 c0 (ROWS + 1) s hwf hlow hf
    (by omega) (by have := hlow r0 c0 hf; push_cast; omega)
  have hin1 : pieceInGrid { s.currentPiece with y := y1 } := by
    by_cases heq : y1 = s.currentPiece.y
    · rw [heq]; exact hin
    · have := hfirst (y1 - 1) (by omega) (by omega)
      rw [sub_add_cancel] at this
      exact pieceInGrid_of_canMove_true s.board hwf s.currentPiece y1 this
  have hs0 : ∃ s0, dropLoop (ROWS + 1) s = some s0 ∧ s0.board = s.board ∧
      s0.nextPiece = s.nextPiece ∧ pieceInGrid s0.currentPiece ∧
      canMove s0.board s0.currentPiece.x (s0.currentPiece.y + 1) s0.currentPiece.shape
        = some false := ⟨_, hloop, rfl, rfl, hin1, hstop⟩
  obtain ⟨s0, hloop0, hb0, hn0, hin0, hstop0⟩ := hs0
  have hwf0 : wfBoard s0.board := by rw [hb0]; exact hwf
  obtain ⟨s1, hm⟩ := mergePiece_isSome s0 hwf0 hin0
  have ha := dropPiece_eq s s0 s1 rnd hwf0 hloop0 hm
  have hb := movePieceDown_lock_eq s0 s1 rnd hwf0 hstop0 hm
  have hmd : moveDownUntilLock (ROWS + 1) s rnd = movePieceDown s0 rnd := by
    rw [moveDownUntilLock_eq, hloop0]; rfl
  obtain ⟨b1, _, hs1⟩ := mergePiece_eq s0 s1 hm
  have hn1 : s1.nextPiece = s.nextPiece := by rw [hs1]; exact hn0
  have hc1 : s1.currentPiece = s0.currentPiece := by rw [hs1]
  refine ⟨s0, _, _, hloop0, ha, hmd.trans hb, ?_⟩
  cases hover : s1.isGameOver <;> simp [hover, hn1, hc1]

/-- C14 at two states.  At `stateGapTop` the lock does not end the game and both
ways give the same state; at `stateTall` the O piece locks in row 0, the game is
over, and the two states differ in the active and the next piece. -/
theorem dropPiece_vs_moveDown_witness :
    ((wfBoard stateGapTop.board ∧ pieceInGrid stateGapTop.currentPiece ∧
        filled stateGapTop.currentPiece.shape 0 0) ∧
      ∃ s0 a b, dropLoop (ROWS + 1) stateGapTop = some s0 ∧
        dropPiece stateGapTop ⟨2, by decide⟩ = some a ∧
        moveDownUntilLock (ROWS + 1) stateGapTop ⟨2, by decide⟩ = some b ∧
        a.board = b.board ∧ a.score = b.score ∧ a.isGameOver = b.isGameOver ∧
        (b.isGameOver = false → a = b) ∧
        (b.isGameOver = true →
          a.currentPiece = stateGapTop.nextPiece ∧ a.nextPiece = createNewPiece ⟨2, by decide⟩ ∧
          b.currentPiece = s0.currentPiece ∧ b.nextPiece = stateGapTop.nextPiece)) ∧
    dropPiece stateGapTop ⟨2, by decide⟩ = moveDownUntilLock (ROWS + 1) stateGapTop ⟨2, by decide⟩ ∧
    (dropPiece stateTall ⟨2, by decide⟩).map
        (fun a => (a.isGameOver, a.score, a.currentPiece, a.nextPiece))
      = some (true, 100, createNewPiece ⟨0, by decide⟩, createNewPiece ⟨2, by decide⟩) ∧
    (moveDownUntilLock (ROWS + 1) stateTall ⟨2, by decide⟩).map
        (fun b => (b.isGameOver, b.score, b.currentPiece, b.nextPiece))
      = some (true, 100, createNewPiece ⟨1, by decide⟩, createNewPiece ⟨0, by decide⟩) :=
  ⟨⟨by decide,
    dropPiece_vs_moveDown stateGapTop ⟨2, by decide⟩ (by decide) (by decide) ⟨0, 0, by decide⟩⟩,
   by decide, by decide, by decide⟩

/-! ### The invariant of the game -/

theorem createNewPiece_good : ∀ rnd, goodPiece (createNewPiece rnd) := by decide

theorem goodShape_rect (shape : Shape) (h : goodShape shape) :
    rect shape.length (shapeWidth shape) shape := ⟨rfl, h.2.2.1⟩

theorem filled_iff_entry (shape : Shape) (r c : Nat) : filled shape r c ↔ entry shape r c ≠ 0 :=
  Iff.rfl

theorem shapeWidth_of_rect (R : Shape) (m n : Nat) (hn : 1 ≤ n) (h : rect n m R) :
    shapeWidth R = m := by
  cases R with
  | nil => have := h.1; simp at this; omega
  | cons first rest => exact h.2 first (by simp)

theorem rotate_goodShape (shape R : Shape) (h : goodShape shape) (hrot : rotate shape = some R) :
    goodShape R := by
  obtain ⟨hm, hn, hrows, r, hr, c, hc, hf⟩ := h
  obtain ⟨R1, hR1, hrect, _, hentry⟩ :=
    rotate_spec shape shape.length (shapeWidth shape) hm ⟨rfl, hrows⟩
  rw [hrot] at hR1
  cases hR1
  have hw := shapeWidth_of_rect R shape.length (shapeWidth shape) hn hrect
  refine ⟨by rw [hrect.1]; exact hn, by rw [hw]; exact hm, ?_, ?_⟩
  · intro row hrow; rw [hw]; exact hrect.2 row hrow
  · refine ⟨c, by rw [hrect.1]; exact hc, shape.length - 1 - r, by rw [hw]; omega, ?_⟩
    rw [filled_iff_entry, hentry c (shape.length - 1 - r) hc (by omega)]
    rw [show shape.length - 1 - (shape.length - 1 - r) = r by omega]
    exact hf

theorem rotate_isSome_of_goodShape (shape : Shape) (h : goodShape shape) :
    ∃ R, rotate shape = some R := by
  cases hs : shape with
  | nil => rw [hs] at h; exact absurd h.1 (by decide)
  | cons first rest => exact ⟨_, rfl⟩

theorem setCell_cellsInRange (b b1 : Board) (i j : Int) (v : Nat) (hv : v ≤ 7)
    (hb : cellsInRange b) (h : setCell b i j v = some b1) : cellsInRange b1 := by
  unfold setCell at h
  cases hidx : index? b i with
  | none => rw [hidx] at h; cases h
  | some r =>
    rw [hidx] at h
    simp only at h
    split at h
    · cases h
      have hr : r ∈ b := by
        unfold index? at hidx
        split at hidx
        · cases hidx
        · exact List.getElem?_mem hidx
      intro r1 hr1 cell hcell
      rcases List.mem_or_eq_of_mem_set hr1 with hm | rfl
      · exact hb r1 hm cell hcell
      · rcases List.mem_or_eq_of_mem_set hcell with hm | rfl
        · exact hb r hr cell hm
        · exact hv
    · cases h

theorem mergeCells_cellsInRange (color : Nat) (hcol : color ≤ 7) (px py : Int) (y : Nat) :
    ∀ (cells : List Nat) (x : Nat) (b b1 : Board), cellsInRange b →
      mergeCells color px py y cells x b = some b1 → cellsInRange b1 := by
  intro cells
  induction cells with
  | nil => intro x b b1 hb h; simp only [mergeCells] at h; cases h; exact hb
  | cons cell rest ih =>
    intro x b b1 hb h
    simp only [mergeCells] at h
    split at h
    · cases hs : setCell b (py + y) (px + x) color with
      | none => rw [hs] at h; cases h
      | some b2 =>
        rw [hs] at h
        exact ih (x + 1) b2 b1 (setCell_cellsInRange b b2 _ _ _ hcol hb hs) h
    · exact ih (x + 1) b b1 hb h

theorem mergeRows_cellsInRange (color : Nat) (hcol : color ≤ 7) (px py : Int) :
    ∀ (rows : List (List Nat)) (y : Nat) (b b1 : Board), cellsInRange b →
      mergeRows color px py rows y b = some b1 → cellsInRange b1 := by
  intro rows
  induction rows with
  | nil => intro y b b1 hb h; simp only [mergeRows] at h; cases h; exact hb
  | cons cells rest ih =>
    intro y b b1 hb h
    simp only [mergeRows] at h
    cases hs : mergeCells color px py y cells 0 b with
    | none => rw [hs] at h; cases h
    | some b2 =>
      rw [hs] at h
      exact ih (y + 1) b2 b1 (mergeCells_cellsInRange color hcol px py y cells 0 b b2 hb hs) h

theorem clearedBoard_wf (b : Board) (hwf : wfBoard b) : wfBoard (clearedBoard b) := by
  unfold clearedBoard fullRows
  constructor
  · rw [List.length_append, List.length_replicate, ← hwf.1]
    have h1 := List.length_eq_countP_add_countP rowFull b
    have h2 : List.countP (fun a => decide ¬rowFull a = true) b
        = (b.filter (fun r => !rowFull r)).length := by
      rw [List.countP_eq_length_filter]
      congr 1
      apply List.filter_congr
      intro x _
      cases rowFull x <;> rfl
    omega
  · intro r hr
    rw [List.mem_append] at hr
    rcases hr with hr | hr
    · rw [List.eq_of_mem_replicate hr]; rfl
    · exact hwf.2 r (List.mem_of_mem_filter hr)

theorem clearedBoard_cellsInRange (b : Board) (hb : cellsInRange b) :
    cellsInRange (clearedBoard b) := by
  unfold clearedBoard
  intro r hr cell hcell
  rw [List.mem_append] at hr
  rcases hr with hr | hr
  · rw [List.eq_of_mem_replicate hr] at hcell
    have := List.eq_of_mem_replicate hcell
    omega
  · exact hb r (List.mem_of_mem_filter hr) cell hcell

theorem lockPiece_inv (s : State) (hwf : wfBoard s.board) (hcells : cellsInRange s.board)
    (hin : pieceInGrid s.currentPiece) (hcol : s.currentPiece.color ≤ 7) :
    ∃ s2, lockPiece s = some s2 ∧ wfBoard s2.board ∧ cellsInRange s2.board ∧
      s2.currentPiece = s.currentPiece ∧ s2.nextPiece = s.nextPiece := by
  obtain ⟨s1, hm⟩ := mergePiece_isSome s hwf hin
  have hwf1 := mergePiece_wf s s1 hwf hm
  obtain ⟨b1, hb1, hs1⟩ := mergePiece_eq s s1 hm
  have hc1 : cellsInRange s1.board := by
    rw [hs1]
    exact mergeRows_cellsInRange _ hcol _ _ _ _ _ _ hcells hb1
  refine ⟨_, lockPiece_eq s s1 hwf hm, clearedBoard_wf _ hwf1, clearedBoard_cellsInRange _ hc1,
    ?_, ?_⟩
  · rw [hs1]
  · rw [hs1]

theorem movePieceDown_inv (s : State) (rnd : Fin SHAPES.length) (h : Inv s) :
    ∃ s1, movePieceDown s rnd = some s1 ∧ Inv s1 := by
  obtain ⟨hwf, hcells, ⟨hy, hin, hcol, hshape⟩, r, hnext⟩ := h
  obtain ⟨res, hres, _⟩ := canMoveRows_spec s.board hwf s.currentPiece.x (s.currentPiece.y + 1)
    (by omega) s.currentPiece.shape 0
  have hcm : canMove s.board s.currentPiece.x (s.currentPiece.y + 1) s.currentPiece.shape
      = some res := hres
  cases res with
  | true =>
    refine ⟨{ s with currentPiece := { s.currentPiece with y := s.currentPiece.y + 1 } },
      by simp only [movePieceDown, hcm], hwf, hcells, ⟨?_, ?_, hcol, hshape⟩, r, hnext⟩
    · simp only; omega
    · exact pieceInGrid_of_canMove_true s.board hwf s.currentPiece _ hcm
  | false =>
    obtain ⟨s2, hlock, hwf2, hcells2, hcur2, hnext2⟩ := lockPiece_inv s hwf hcells hin hcol
    simp only [movePieceDown, hcm, hlock]
    cases hover : s2.isGameOver with
    | true =>
      refine ⟨{ s2 with timerActive := false }, by simp [hover], hwf2, hcells2, ?_, r, ?_⟩
      · simp only [hcur2]; exact ⟨hy, hin, hcol, hshape⟩
      · simp only [hnext2]; exact hnext
    | false =>
      refine ⟨{ s2 with currentPiece := s2.nextPiece, nextPiece := createNewPiece rnd },
        by simp [hover], hwf2, hcells2, ?_, rnd, rfl⟩
      simp only [hnext2, hnext]
      exact createNewPiece_good r

theorem dropPiece_inv (s : State) (rnd : Fin SHAPES.length) (h : Inv s) :
    ∃ s1, dropPiece s rnd = some s1 ∧ Inv s1 := by
  obtain ⟨hwf, hcells, ⟨hy, hin, hcol, hshape⟩, r, hnext⟩ := h
  obtain ⟨_, _, _, r0, _, c0, _, hf⟩ := hshape
  obtain ⟨y1, hle, hloop, _, hfirst, _⟩ := dropLoop_low r0 c0 (ROWS + 1) s hwf
    (fun r c _ => by omega) hf (by omega) (by push_cast; omega)
  have hin1 : pieceInGrid { s.currentPiece with y := y1 } := by
    by_cases heq : y1 = s.currentPiece.y
    · rw [heq]; exact hin
    · have := hfirst (y1 - 1) (by omega) (by omega)
      rw [sub_add_cancel] at this
      exact pieceInGrid_of_canMove_true s.board hwf s.currentPiece y1 this
  obtain ⟨s2, hlock, hwf2, hcells2, _, hnext2⟩ := lockPiece_inv
    { s with currentPiece := { s.currentPiece with y := y1 } } hwf hcells hin1 hcol
  refine ⟨{ s2 with currentPiece := s2.nextPiece, nextPiece := createNewPiece rnd },
    by simp only [dropPiece, hloop, hlock], hwf2, hcells2, ?_, rnd, rfl⟩
  simp only [hnext2, hnext]
  exact createNewPiece_good r

theorem movePieceLeft_inv (s : State) (h : Inv s) : ∃ s1, movePieceLeft s = some s1 ∧ Inv s1 := by
  obtain ⟨hwf, hcells, ⟨hy, hin, hcol, hshape⟩, hnext⟩ := h
  obtain ⟨res, hres, _⟩ := canMoveRows_spec s.board hwf (s.currentPiece.x - 1) s.currentPiece.y
    hy s.currentPiece.shape 0
  have hcm : canMove s.board (s.currentPiece.x - 1) s.currentPiece.y s.currentPiece.shape
      = some res := hres
  cases res with
  | true =>
    refine ⟨{ s with currentPiece := { s.currentPiece with x := s.currentPiece.x - 1 } },
      by simp only [movePieceLeft, hcm], hwf, hcells, ⟨hy, ?_, hcol, hshape⟩, hnext⟩
    exact pieceInGrid_of_canMove_true s.board hwf { s.currentPiece with x := s.currentPiece.x - 1 }
      s.currentPiece.y hcm
  | false => exact ⟨s, by simp only [movePieceLeft, hcm], hwf, hcells, ⟨hy, hin, hcol, hshape⟩, hnext⟩

theorem movePieceRight_inv (s : State) (h : Inv s) :
    ∃ s1, movePieceRight s = some s1 ∧ Inv s1 := by
  obtain ⟨hwf, hcells, ⟨hy, hin, hcol, hshape⟩, hnext⟩ := h
  obtain ⟨res, hres, _⟩ := canMoveRows_spec s.board hwf (s.currentPiece.x + 1) s.currentPiece.y
    hy s.currentPiece.shape 0
  have hcm : canMove s.board (s.currentPiece.x + 1) s.currentPiece.y s.currentPiece.shape
      = some res := hres
  cases res with
  | true =>
    refine ⟨{ s with currentPiece := { s.currentPiece with x := s.currentPiece.x + 1 } },
      by simp only [movePieceRight, hcm], hwf, hcells, ⟨hy, ?_, hcol, hshape⟩, hnext⟩
    exact pieceInGrid_of_canMove_true s.board hwf { s.currentPiece with x := s.currentPiece.x + 1 }
      s.currentPiece.y hcm
  | false =>
    exact ⟨s, by simp only [movePieceRight, hcm], hwf, hcells, ⟨hy, hin, hcol, hshape⟩, hnext⟩

theorem rotatePiece_inv (s : State) (h : Inv s) : ∃ s1, rotatePiece s = some s1 ∧ Inv s1 := by
  obtain ⟨hwf, hcells, ⟨hy, hin, hcol, hshape⟩, hnext⟩ := h
  obtain ⟨R, hR⟩ := rotate_isSome_of_goodShape _ hshape
  obtain ⟨res, hres, _⟩ := canMoveRows_spec s.board hwf s.currentPiece.x s.currentPiece.y hy R 0
  have hcm : canMove s.board s.currentPiece.x s.currentPiece.y R = some res := hres
  cases res with
  | true =>
    refine ⟨{ s with currentPiece := { s.currentPiece with shape := R } },
      by simp only [rotatePiece, hR, hcm], hwf, hcells,
      ⟨hy, ?_, hcol, rotate_goodShape _ R hshape hR⟩, hnext⟩
    exact pieceInGrid_of_canMove_true s.board hwf { s.currentPiece with shape := R }
      s.currentPiece.y hcm
  | false =>
    exact ⟨s, by simp only [rotatePiece, hR, hcm], hwf, hcells, ⟨hy, hin, hcol, hshape⟩, hnext⟩

theorem step_inv (s : State) (e : Event) (h : Inv s) : ∃ s1, step s e = some s1 ∧ Inv s1 := by
  cases e with
  | tick rnd =>
    simp only [step, gameLoop]
    split
    · exact movePieceDown_inv s rnd h
    · exact ⟨s, rfl, h⟩
  | key k rnd =>
    simp only [step, handleKeyPress]
    split
    · exact ⟨s, rfl, h⟩
    · split
      · exact movePieceLeft_inv s h
      · split
        · exact movePieceRight_inv s h
        · split
          · exact movePieceDown_inv s rnd h
          · split
            · exact rotatePiece_inv s h
            · split
              · exact dropPiece_inv s rnd h
              · split
                · refine ⟨togglePause s, rfl, ?_⟩
                  unfold togglePause
                  split <;> exact h
                · exact ⟨s, rfl, h⟩

theorem run_inv : ∀ (events : List Event) (s : State), Inv s →
    ∃ s1, run s events = some s1 ∧ Inv s1 := by
  intro events
  induction events with
  | nil => intro s h; exact ⟨s, rfl, h⟩
  | cons e rest ih =>
    intro s h
    obtain ⟨s1, hs1, h1⟩ := step_inv s e h
    obtain ⟨s2, hs2, h2⟩ := ih s1 h1
    exact ⟨s2, by simp only [run, hs1]; exact hs2, h2⟩

theorem initialState_inv (r1 r2 : Fin SHAPES.length) : Inv (initialState r1 r2) :=
  ⟨(by decide : wfBoard emptyBoard), (by decide : cellsInRange emptyBoard),
    createNewPiece_good r1, r2, rfl⟩

theorem reachable_inv (s : State) (h : Reachable s) : Inv s := by
  obtain ⟨r1, r2, events, hrun⟩ := h
  obtain ⟨s1, hs1, h1⟩ := run_inv events _ (initialState_inv r1 r2)
  rw [hrun] at hs1
  cases hs1
  exact h1

/-! ### Reachable states -/

theorem stateAfterDrop_reachable : Reachable stateAfterDrop :=
  ⟨⟨1, by decide⟩, ⟨0, by decide⟩, [Event.key " " ⟨3, by decide⟩], by decide⟩

/-- C17: in every state reached from the initial state by ticks and key events
the board has exactly 20 rows of exactly 10 cells and every cell is 0 or a
colour from 1 to 7; `mergePiece` and `checkLines` return boards of the same
dimensions. -/
theorem reachable_board (s : State) (h : Reachable s) :
    s.board.length = ROWS ∧ (∀ r ∈ s.board, r.length = COLS) ∧
    (∀ r ∈ s.board, ∀ cell ∈ r, cell = 0 ∨ (1 ≤ cell ∧ cell ≤ 7)) ∧
    (∀ s1, mergePiece s = some s1 →
      s1.board.length = ROWS ∧ ∀ r ∈ s1.board, r.length = COLS) ∧
    (∀ s1, checkLines s = some s1 →
      s1.board.length = ROWS ∧ ∀ r ∈ s1.board, r.length = COLS) := by
  obtain ⟨hwf, hcells, _, _⟩ := reachable_inv s h
  refine ⟨hwf.1, hwf.2, ?_, ?_, ?_⟩
  · intro r hr cell hcell
    have := hcells r hr cell hcell
    omega
  · intro s1 hs1
    exact mergePiece_wf s s1 hwf hs1
  · intro s1 hs1
    rw [checkLines_eq s hwf.1] at hs1
    cases hs1
    exact clearedBoard_wf _ hwf

/-- C17 at `stateAfterDrop`, the state after the O piece was dropped on the empty board. -/
theorem reachable_board_witness :
    Reachable stateAfterDrop ∧
    stateAfterDrop.board.length = ROWS ∧ (∀ r ∈ stateAfterDrop.board, r.length = COLS) ∧
    (∀ r ∈ stateAfterDrop.board, ∀ cell ∈ r, cell = 0 ∨ (1 ≤ cell ∧ cell ≤ 7)) ∧
    (∀ s1, mergePiece stateAfterDrop = some s1 →
      s1.board.length = ROWS ∧ ∀ r ∈ s1.board, r.length = COLS) ∧
    (∀ s1, checkLines stateAfterDrop = some s1 →
      s1.board.length = ROWS ∧ ∀ r ∈ s1.board, r.length = COLS) :=
  ⟨stateAfterDrop_reachable, reachable_board stateAfterDrop stateAfterDrop_reachable⟩

/-- C18 (the code at the failing input): the T piece as `createNewPiece` makes
it has colour 0; resting on the floor of the empty board it is on the grid and
cannot move down, and after `mergePiece` the board is still empty: the cell
under its filled cell (1, 0), row 19, column 4, holds 0.  Hard-dropping the T
piece from the initial state leaves the board empty as well. -/
theorem mergePiece_T_writes_zero :
    stateTFloor.currentPiece.shape = [[0, 3, 0], [3, 3, 3]] ∧
    stateTFloor.currentPiece.color = 0 ∧
    pieceInGrid stateTFloor.currentPiece ∧ filled stateTFloor.currentPiece.shape 1 0 ∧
    canMove stateTFloor.board stateTFloor.currentPiece.x (stateTFloor.currentPiece.y + 1)
      stateTFloor.currentPiece.shape = some false ∧
    mergePiece stateTFloor = some stateTFloor ∧ stateTFloor.board = emptyBoard ∧
    (mergePiece stateTFloor).map (fun s1 => boardCell s1.board 19 4) = some (some 0) ∧
    (dropPiece (initialState ⟨2, by decide⟩ ⟨0, by decide⟩) ⟨1, by decide⟩).map
      (fun s1 => s1.board) = some emptyBoard := by
  decide

/-- C19: in every state reached from the initial state by ticks and key events
the anchor of the active piece has y ≥ 0 and every filled cell of its shape is
on the grid.  So `canMove` at any position not above the anchor returns (it
reads no row outside the board), `mergePiece` returns (it writes only cells of
the grid), and every tick and key event is handled to its end. -/
theorem reachable_piece_on_grid (s : State) (h : Reachable s) :
    0 ≤ s.currentPiece.y ∧
    (∀ r c, filled s.currentPiece.shape r c →
      0 ≤ s.currentPiece.x + c ∧ s.currentPiece.x + c < COLS ∧
      0 ≤ s.currentPiece.y + r ∧ s.currentPiece.y + r < ROWS) ∧
    (∀ (x1 y1 : Int) (shape1 : Shape), s.currentPiece.y ≤ y1 →
      ∃ res, canMove s.board x1 y1 shape1 = some res) ∧
    (∃ s1, mergePiece s = some s1) ∧
    (∀ e, ∃ s1, step s e = some s1) := by
  have hinv := reachable_inv s h
  obtain ⟨hwf, _, ⟨hy, hin, _, _⟩, _⟩ := reachable_inv s h
  refine ⟨hy, ?_, ?_, mergePiece_isSome s hwf hin, ?_⟩
  · intro r c hf
    obtain ⟨cells, v, hr, hc, hv⟩ := getElem?_of_filled _ r c hf
    obtain ⟨h1, h2, _⟩ := filled_of_getElem? _ r c cells v hr hc hv
    have := hin r h1 c h2 hf
    exact ⟨this.2.2.1, this.2.2.2, this.1, this.2.1⟩
  · intro x1 y1 shape1 hy1
    obtain ⟨res, hres, _⟩ := canMoveRows_spec s.board hwf x1 y1 (by omega) shape1 0
    exact ⟨res, hres⟩
  · intro e
    obtain ⟨s1, hs1, _⟩ := step_inv s e hinv
    exact ⟨s1, hs1⟩

/-- C19 at `stateAfterDrop`. -/
theorem reachable_piece_on_grid_witness :
    Reachable stateAfterDrop ∧
    0 ≤ stateAfterDrop.currentPiece.y ∧
    (∀ r c, filled stateAfterDrop.currentPiece.shape r c →
      0 ≤ stateAfterDrop.currentPiece.x + c ∧ stateAfterDrop.currentPiece.x + c < COLS ∧
      0 ≤ stateAfterDrop.currentPiece.y + r ∧ stateAfterDrop.currentPiece.y + r < ROWS) ∧
    (∀ (x1 y1 : Int) (shape1 : Shape), stateAfterDrop.currentPiece.y ≤ y1 →
      ∃ res, canMove stateAfterDrop.board x1 y1 shape1 = some res) ∧
    (∃ s1, mergePiece stateAfterDrop = some s1) ∧
    (∀ e, ∃ s1, step stateAfterDrop e = some s1) :=
  ⟨stateAfterDrop_reachable, reachable_piece_on_grid stateAfterDrop stateAfterDrop_reachable⟩

/-! ### Termination of the loop of dropPiece -/

/-- With `y ≥ 0` the loop of `dropPiece` stops within `ROWS - 1` steps down, for any amount of
fuel from `ROWS` on, at the first position where `canMove(x, y + 1)` fails. -/
theorem dropLoop_bound (s : State) (hwf : wfBoard s.board) (hy : 0 ≤ s.currentPiece.y)
    (hfilled : ∃ r c, filled s.currentPiece.shape r c) :
    ∃ y1, s.currentPiece.y ≤ y1 ∧ y1 - s.currentPiece.y ≤ (ROWS : Int) - 1 ∧
      (∀ fuel, ROWS ≤ fuel →
        dropLoop fuel s = some { s with currentPiece := { s.currentPiece with y := y1 } }) ∧
      canMove s.board s.currentPiece.x (y1 + 1) s.currentPiece.shape = some false ∧
      (∀ y2, s.currentPiece.y ≤ y2 → y2 < y1 →
        canMove s.board s.currentPiece.x (y2 + 1) s.currentPiece.shape = some true) := by
  obtain ⟨r0, c0, hf⟩ := hfilled
  have hlow : ∀ r c, filled s.currentPiece.shape r c → 0 ≤ s.currentPiece.y + r :=
    fun r c _ => by omega
  obtain ⟨y1, hle, _, hstop, hfirst, hbound⟩ := dropLoop_low r0 c0 ROWS s hwf hlow hf
    (by decide) (by omega)
  refine ⟨y1, hle, ?_, ?_, hstop, hfirst⟩
  · by_cases heq : y1 = s.currentPiece.y
    · rw [heq]; simp [ROWS]
    · have := hbound (by omega)
      omega
  · intro fuel hfuel
    obtain ⟨y3, hle3, hloop3, hstop3, hfirst3, _⟩ := dropLoop_low r0 c0 fuel s hwf hlow hf
      (by have : 1 ≤ ROWS := by decide
          omega) (by omega)
    have hy3 : y3 = y1 := by
      rcases lt_trichotomy y3 y1 with hlt | heq | hgt
      · have := hfirst y3 hle3 hlt
        rw [hstop3] at this
        cases this
      · exact heq
      · have := hfirst3 y1 hle hgt
        rw [hstop] at this
        cases this
    rw [hloop3, hy3]

/-- C20: on a board of 20 rows of 10 cells, for a piece at y ≥ 0 whose shape has
a filled cell, the loop of `dropPiece` stops after at most `ROWS - 1` steps
down (it returns for every fuel from `ROWS` on, `ROWS + 1` being what
`dropPiece` gives it), each step adding one to y while `canMove(x, y + 1)`
holds; `canMove` fails as soon as a filled cell would be at row `ROWS` or
below.  Every catalog shape has a filled cell and `rotate` keeps one, and in
every reachable state the loop of `dropPiece` stops. -/
theorem dropLoop_terminates :
    (∀ (s : State), wfBoard s.board → 0 ≤ s.currentPiece.y →
      (∃ r c, filled s.currentPiece.shape r c) →
      ∃ y1, s.currentPiece.y ≤ y1 ∧ y1 - s.currentPiece.y ≤ (ROWS : Int) - 1 ∧
        (∀ fuel, ROWS ≤ fuel →
          dropLoop fuel s = some { s with currentPiece := { s.currentPiece with y := y1 } }) ∧
        canMove s.board s.currentPiece.x (y1 + 1) s.currentPiece.shape = some false ∧
        (∀ y2, s.currentPiece.y ≤ y2 → y2 < y1 →
          canMove s.board s.currentPiece.x (y2 + 1) s.currentPiece.shape = some true)) ∧
    (∀ (b : Board) (x y : Int) (shape : Shape) (r c : Nat), wfBoard b → 0 ≤ y →
      filled shape r c → (ROWS : Int) ≤ y + r → canMove b x y shape = some false) ∧
    (∀ rnd, goodShape (SHAPES.get rnd)) ∧
    (∀ shape, goodShape shape → ∃ R, rotate shape = some R ∧ goodShape R) ∧
    (∀ s, Reachable s → ∃ s0, dropLoop (ROWS + 1) s = some s0) := by
  refine ⟨dropLoop_bound, ?_, by decide, ?_, ?_⟩
  · intro b x y shape r c hwf hy hf hrow
    obtain ⟨res, hres, hiff⟩ := canMove_of_low b hwf x y shape (fun r c _ => by omega)
    cases res with
    | false => exact hres
    | true =>
      have := hiff.mp rfl r c hf
      simp only [cellFree] at this
      omega
  · intro shape hshape
    obtain ⟨R, hR⟩ := rotate_isSome_of_goodShape shape hshape
    exact ⟨R, hR, rotate_goodShape shape R hshape hR⟩
  · intro s hs
    obtain ⟨hwf, _, ⟨hy, _, _, hshape⟩, _⟩ := reachable_inv s hs
    obtain ⟨_, _, _, r0, _, c0, _, hf⟩ := hshape
    obtain ⟨y1, _, _, hloop, _, _⟩ := dropLoop_bound s hwf hy ⟨r0, c0, hf⟩
    exact ⟨_, hloop (ROWS + 1) (by omega)⟩

/-- C20 at `stateGapTop`: the upright I piece in column 0 goes down 16 rows. -/
theorem dropLoop_terminates_witness :
    (wfBoard stateGapTop.board ∧ 0 ≤ stateGapTop.currentPiece.y ∧
      filled stateGapTop.currentPiece.shape 0 0) ∧
    (∃ y1, stateGapTop.currentPiece.y ≤ y1 ∧ y1 - stateGapTop.currentPiece.y ≤ (ROWS : Int) - 1 ∧
      (∀ fuel, ROWS ≤ fuel →
        dropLoop fuel stateGapTop
          = some { stateGapTop with currentPiece := { stateGapTop.currentPiece with y := y1 } }) ∧
      canMove stateGapTop.board stateGapTop.currentPiece.x (y1 + 1)
        stateGapTop.currentPiece.shape = some false ∧
      (∀ y2, stateGapTop.currentPiece.y ≤ y2 → y2 < y1 →
        canMove stateGapTop.board stateGapTop.currentPiece.x (y2 + 1)
          stateGapTop.currentPiece.shape = some true)) ∧
    dropLoop ROWS stateGapTop = some stateGapFloor ∧
    dropLoop 17 stateGapTop = some stateGapFloor ∧ dropLoop 16 stateGapTop = none :=
  ⟨by decide, dropLoop_terminates.1 stateGapTop (by decide) (by decide) ⟨0, 0, by decide⟩,
   by decide, by decide, by decide⟩

end Tetris
